import Mathlib

/-!
Verification development for the SafeMDP safe-exploration core
(`safemdp/SafeMDP_class.py` and `safemdp/utilities.py`).

The Python code works on a `networkx.DiGraph` whose edges carry an integer
`action` label and a boolean `safe` flag, and on dense boolean matrices of
shape `(num_nodes, max_out_degree + 1)`.  We embed:

* a directed graph as a list of labelled edges (`DiGraph`);
* a boolean matrix as a total function `Nat → Nat → Bool` (`Mat`);
* the breadth-first traversals `reachable_set` / `returnable_set` as
  fuelled loops (`reachGo` / `returnGo`) whose canonical fuel
  (`unmarked · + queue length`) is proved sufficient below, so that the
  fuelled function computes exactly the fixpoint the Python `while stack:`
  loop produces;
* the Python `raise AttributeError('Set of initial nodes needs to be
  non-empty.')` as the `Except` error `SafeError.emptySeedSet`.
-/

/-- An edge of the MDP graph: `src → dst` under action label `action`
(the `action` entry of the edge's metadata dictionary). -/
structure Edge where
  src : Nat
  dst : Nat
  action : Nat
deriving DecidableEq, Repr

/-- A directed graph: node identifiers are `0 .. numNodes - 1`, and the
edge list keeps networkx insertion order. -/
structure DiGraph where
  numNodes : Nat
  edges : List Edge
deriving DecidableEq, Repr

/-- Reversing a single edge, keeping its action label (as
`networkx.DiGraph.reverse` keeps edge data). -/
def Edge.flip (e : Edge) : Edge := ⟨e.dst, e.src, e.action⟩

/-- `graph.reverse()`: every edge flipped, metadata preserved. -/
def DiGraph.reverse (g : DiGraph) : DiGraph :=
  ⟨g.numNodes, g.edges.map Edge.flip⟩

/-- `graph.edges(node, data=True)`: the out-edges of `node`, in edge-list
(insertion) order. -/
def outEdges (g : DiGraph) (node : Nat) : List Edge :=
  g.edges.filter (fun e => e.src == node)

/-- `graph.get_edge_data(u, v)`: the data of the edge `u → v`
(`networkx.DiGraph` holds at most one edge per ordered pair). -/
def getEdgeData (g : DiGraph) (u v : Nat) : Option Edge :=
  g.edges.find? (fun e => e.src == u && e.dst == v)

/-- A dense boolean matrix indexed by `(node, action)`; column `0` means
"the node itself is in the set". -/
abbrev Mat := Nat → Nat → Bool

/-- The all-`False` matrix (`array[:] = False`). -/
def falseMat : Mat := fun _ _ => false

/-- `visited[i, j] = True`. -/
def setCell (v : Mat) (i j : Nat) : Mat :=
  fun a b => if a = i ∧ b = j then true else v a b

/-- `visited[initial_nodes, 0] = True`. -/
def markSeeds (v : Mat) (ns : List Nat) : Mat :=
  ns.foldl (fun w n => setCell w n 0) v

/-- The number of nodes below `B` whose column-0 cell is still false; the
termination measure of both BFS loops. -/
def unmarked (B : Nat) (v : Mat) : Nat :=
  (List.range B).countP (fun n => v n 0 == false)

/-- A strict upper bound on every node that a traversal of `g` can append
to its frontier queue (every edge destination). -/
def nodeBound (g : DiGraph) : Nat :=
  g.edges.foldr (fun e acc => max (e.dst + 1) acc) 0

/-- The error raised by the traversals on an empty seed list (Python:
`AttributeError('Set of initial nodes needs to be non-empty.')`). -/
inductive SafeError where
  | emptySeedSet
deriving DecidableEq, Repr

instance : DecidableEq (Except SafeError Unit) := fun a b =>
  match a, b with
  | Except.ok (), Except.ok () => isTrue rfl
  | Except.ok (), Except.error _ => isFalse (fun h => Except.noConfusion h)
  | Except.error _, Except.ok () => isFalse (fun h => Except.noConfusion h)
  | Except.error SafeError.emptySeedSet, Except.error SafeError.emptySeedSet => isTrue rfl

/-- The body of the `for _, next_node, data in graph.edges(node, data=True)`
loop of `reachable_set`, for one edge `e` (so `e.src` is the popped node):
if the `(node, action)` cell is unmarked and the edge is safe, mark it, and
if the successor's column-0 cell is unmarked, mark it and append the
successor to the queue. -/
def reachStep (safe : Edge → Bool) (v : Mat) (q : List Nat) (e : Edge) : Mat × List Nat :=
  if v e.src e.action = false ∧ safe e = true then
    if setCell v e.src e.action e.dst 0 = false then
      (setCell (setCell v e.src e.action) e.dst 0, q ++ [e.dst])
    else
      (setCell v e.src e.action, q)
  else
    (v, q)

/-- The whole inner `for` loop of `reachable_set` over an edge list. -/
def reachInner (safe : Edge → Bool) (es : List Edge) (v : Mat) (q : List Nat) :
    Mat × List Nat :=
  match es with
  | [] => (v, q)
  | e :: rest =>
      reachInner safe rest (reachStep safe v q e).1 (reachStep safe v q e).2

/-- The `while stack:` loop of `reachable_set`, with explicit fuel
(`reachRun` instantiates the fuel with a bound proved sufficient in
`reachGo_fuel_add`, so the zero-fuel branch is never taken from that
starting point). -/
def reachGo (g : DiGraph) (safe : Edge → Bool) : Nat → List Nat → Mat → Mat
  | 0, _, v => v
  | _ + 1, [], v => v
  | fuel + 1, node :: rest, v =>
      reachGo g safe fuel (reachInner safe (outEdges g node) v rest).2
        (reachInner safe (outEdges g node) v rest).1

/-- `reachable_set` after the seed-marking line: mark the seeds, then run
the BFS loop to completion. -/
def reachRun (g : DiGraph) (safe : Edge → Bool) (seeds : List Nat) (out : Mat) : Mat :=
  reachGo g safe (unmarked (nodeBound g) (markSeeds out seeds) + seeds.length)
    seeds (markSeeds out seeds)

/-- `reachable_set(graph, initial_nodes, out)`: raises on an empty seed
list before touching `out`; otherwise marks the seeds and runs the BFS,
returning the filled matrix (the in-place result). -/
def reachable_set (g : DiGraph) (safe : Edge → Bool) (initial_nodes : List Nat)
    (out : Mat) : Except SafeError Unit × Mat :=
  if initial_nodes = [] then (Except.error SafeError.emptySeedSet, out)
  else (Except.ok (), reachRun g safe initial_nodes out)

/-- The body of the `for _, prev_node in reverse_graph.edges(node)` loop of
`returnable_set`, for one reverse edge `e` (so `e.src` is the popped node
and `e.dst` is `prev_node`): look the forward edge up in `graph`
(`graph.get_edge_data(prev_node, node)`), and if the `(prev_node, action)`
cell is unmarked and the forward edge is safe, mark it, and if
`prev_node`'s column-0 cell is unmarked, mark it and append `prev_node`.
(The caller passes `reverse_graph = graph.reverse()`, so the lookup always
succeeds there; on a failed lookup Python would crash, we skip.) -/
def returnStep (g : DiGraph) (safe : Edge → Bool) (v : Mat) (q : List Nat) (e : Edge) :
    Mat × List Nat :=
  match getEdgeData g e.dst e.src with
  | none => (v, q)
  | some d =>
      if v e.dst d.action = false ∧ safe d = true then
        if setCell v e.dst d.action e.dst 0 = false then
          (setCell (setCell v e.dst d.action) e.dst 0, q ++ [e.dst])
        else
          (setCell v e.dst d.action, q)
      else
        (v, q)

/-- The whole inner `for` loop of `returnable_set` over a reverse-edge list. -/
def returnInner (g : DiGraph) (safe : Edge → Bool) (es : List Edge) (v : Mat)
    (q : List Nat) : Mat × List Nat :=
  match es with
  | [] => (v, q)
  | e :: rest =>
      returnInner g safe rest (returnStep g safe v q e).1 (returnStep g safe v q e).2

/-- The `while stack:` loop of `returnable_set`, with explicit fuel. -/
def returnGo (g rg : DiGraph) (safe : Edge → Bool) : Nat → List Nat → Mat → Mat
  | 0, _, v => v
  | _ + 1, [], v => v
  | fuel + 1, node :: rest, v =>
      returnGo g rg safe fuel (returnInner g safe (outEdges rg node) v rest).2
        (returnInner g safe (outEdges rg node) v rest).1

/-- `returnable_set` after the seed-marking line. -/
def returnRun (g rg : DiGraph) (safe : Edge → Bool) (seeds : List Nat) (out : Mat) : Mat :=
  returnGo g rg safe (unmarked (nodeBound rg) (markSeeds out seeds) + seeds.length)
    seeds (markSeeds out seeds)

/-- `returnable_set(graph, reverse_graph, initial_nodes, out)`. -/
def returnable_set (g rg : DiGraph) (safe : Edge → Bool) (initial_nodes : List Nat)
    (out : Mat) : Except SafeError Unit × Mat :=
  if initial_nodes = [] then (Except.error SafeError.emptySeedSet, out)
  else (Except.ok (), returnRun g rg safe initial_nodes out)

/-- The observation store of the external GP model: `gp.X` and `gp.Y` as
row lists (shape is irrelevant to the claims, entries are opaque). -/
structure GP where
  X : List (List Int)
  Y : List (List Int)
deriving DecidableEq, Repr

/-- The state of a `SafeMDP` object. -/
structure SafeMDP where
  beta : Int
  h : Int
  L : Int
  gp : GP
  graph : DiGraph
  graph_reverse : DiGraph
  reach : Mat
  G : Mat
  S_hat : Mat
  S_hat0 : Mat
  initial_nodes : List Nat

/-- `SafeMDP.__init__`: `reach` and `G` are `np.empty` (uninitialised
memory), so their initial contents are taken as the explicit parameters
`reachMem` and `GMem`; `initial_nodes` is `S_hat0[:, 0].nonzero()[0]`,
i.e. the in-range rows whose column-0 entry is true, in increasing order. -/
def SafeMDP.init (graph : DiGraph) (gp : GP) (S_hat0 : Mat) (h L beta : Int)
    (reachMem GMem : Mat) : SafeMDP :=
  { beta := beta
    h := h
    L := L
    gp := gp
    graph := graph
    graph_reverse := graph.reverse
    reach := reachMem
    G := GMem
    S_hat := S_hat0
    S_hat0 := S_hat0
    initial_nodes := (List.range graph.numNodes).filter (fun n => S_hat0 n 0) }

/-- `SafeMDP.compute_S_hat`, with the graph's current per-edge safety
labels passed as `safe`.  The result pairs the exception outcome with the
object state after the call: `self.reach[:] = False` happens before
`reachable_set` can raise, so on the empty-seed error `reach` is the
cleared matrix while `S_hat` is untouched. -/
def SafeMDP.compute_S_hat (s : SafeMDP) (safe : Edge → Bool) :
    Except SafeError Unit × SafeMDP :=
  -- self.reach[:] = False; reachable_set(self.graph, self.initial_nodes, out=self.reach)
  let r0 := reachable_set s.graph safe s.initial_nodes falseMat
  match r0.1 with
  | Except.error err => (Except.error err, { s with reach := r0.2 })
  | Except.ok _ =>
      -- self.S_hat[:] = False; returnable_set(...)
      let t0 := returnable_set s.graph s.graph_reverse safe s.initial_nodes falseMat
      match t0.1 with
      | Except.error err => (Except.error err, { s with reach := r0.2, S_hat := t0.2 })
      | Except.ok _ =>
          -- self.S_hat &= self.reach
          (Except.ok (), { s with reach := r0.2,
                                  S_hat := fun i j => t0.2 i j && r0.2 i j })

/-- `SafeMDP.add_gp_observations`: vertically stack the new observations
onto the GP's data. -/
def SafeMDP.add_gp_observations (s : SafeMDP) (x_new y_new : List (List Int)) : SafeMDP :=
  { s with gp := { X := s.gp.X ++ x_new, Y := s.gp.Y ++ y_new } }

/-- `link_graph_and_safe_set` stores on each edge the one-element numpy
view `safe_set[node:node+1, action]`; the view is the pair of indices it
dereferences. -/
def link_graph_and_safe_set (e : Edge) : Nat × Nat := (e.src, e.action)

/-- The truth value of the stored view against the current contents of the
safe-set matrix (a one-element boolean array is truthy iff its entry is). -/
def viewValue (safe_set : Mat) (r : Nat × Nat) : Bool := safe_set r.1 r.2

/-- The per-edge safety predicate a graph linked by
`link_graph_and_safe_set` presents to the traversals when the shared
matrix currently holds `safe_set`. -/
def linkedSafe (safe_set : Mat) : Edge → Bool :=
  fun e => viewValue safe_set (link_graph_and_safe_set e)

/-- A base covariance function: its `input_dim` and the scalar kernel
applied to two points (rows). -/
structure BaseKernel where
  input_dim : Nat
  k : List Rat → List Rat → Rat

/-- Row `i` of a row-list matrix. -/
def row (X : List (List Rat)) (i : Nat) : List Rat := X.getD i []

/-- `X[:, :dim]`. -/
def colsLeft (dim : Nat) (X : List (List Rat)) : List (List Rat) :=
  X.map (List.take dim)

/-- `X[:, dim:]`. -/
def colsRight (dim : Nat) (X : List (List Rat)) : List (List Rat) :=
  X.map (List.drop dim)

/-- `kern.K(X, Y)` as an entry function. -/
def BaseKernel.Kmat (bk : BaseKernel) (X Y : List (List Rat)) : Nat → Nat → Rat :=
  fun i j => bk.k (row X i) (row Y j)

/-- `kern.Kdiag(X)` as an entry function. -/
def BaseKernel.KdiagVec (bk : BaseKernel) (X : List (List Rat)) : Nat → Rat :=
  fun i => bk.k (row X i) (row X i)

/-- The `DifferenceKernel` fake kernel, wrapping a base kernel. -/
structure DifferenceKernel where
  kern : BaseKernel

/-- `DifferenceKernel.K(x1, x2)`: with `x2 = None` the rows of `x1` are the
concatenated pairs and the result is
`kern.K(x10) + kern.K(x11) - kern.K(x10, x11) - kern.K(x11, x10)`;
otherwise `x2` holds the concatenated pairs and the result is
`kern.K(x1, x20) - kern.K(x1, x21)`. -/
def DifferenceKernel.K (dk : DifferenceKernel) (x1 : List (List Rat))
    (x2 : Option (List (List Rat))) : Nat → Nat → Rat :=
  match x2 with
  | none =>
      let x10 := colsLeft dk.kern.input_dim x1
      let x11 := colsRight dk.kern.input_dim x1
      fun i j => dk.kern.Kmat x10 x10 i j + dk.kern.Kmat x11 x11 i j
        - dk.kern.Kmat x10 x11 i j - dk.kern.Kmat x11 x10 i j
  | some x2 =>
      let x20 := colsLeft dk.kern.input_dim x2
      let x21 := colsRight dk.kern.input_dim x2
      fun i j => dk.kern.Kmat x1 x20 i j - dk.kern.Kmat x1 x21 i j

/-- `DifferenceKernel.Kdiag(x)`:
`kern.Kdiag(x0) + kern.Kdiag(x1) - 2 * np.diag(kern.K(x0, x1))`. -/
def DifferenceKernel.Kdiag (dk : DifferenceKernel) (x : List (List Rat)) : Nat → Rat :=
  let x0 := colsLeft dk.kern.input_dim x
  let x1 := colsRight dk.kern.input_dim x
  fun i => dk.kern.KdiagVec x0 i + dk.kern.KdiagVec x1 i
    - 2 * dk.kern.Kmat x0 x1 i i

/-- Pointwise ordering of boolean matrices: every cell true in `v` is true
in `w`. -/
def MatLE (v w : Mat) : Prop := ∀ a b, v a b = true → w a b = true

/-- The set of nodes reachable from the seeds by chaining safe edges whose
action label is nonzero (an edge labelled `0` is never traversed by
`reachable_set`, because the popped node's column-0 cell is already
marked). -/
inductive ReachCl (g : DiGraph) (safe : Edge → Bool) (seeds : List Nat) : Nat → Prop where
  | seed {n : Nat} : n ∈ seeds → ReachCl g safe seeds n
  | step {e : Edge} : ReachCl g safe seeds e.src → e ∈ g.edges → safe e = true →
      e.action ≠ 0 → ReachCl g safe seeds e.dst

/-- All safe out-edges of `n` have been processed by the forward BFS:
their action cell and their destination's column-0 cell are marked. -/
def Discharged (g : DiGraph) (safe : Edge → Bool) (v : Mat) (n : Nat) : Prop :=
  ∀ e, e ∈ g.edges → e.src = n → safe e = true → e.action ≠ 0 →
    v n e.action = true ∧ v e.dst 0 = true

/-- Soundness invariant of the forward BFS: every marked column-0 cell is
reachable, and every marked action cell comes from a safe edge whose
destination's column-0 cell is marked (and its own column-0 cell too). -/
def ReachSound (g : DiGraph) (safe : Edge → Bool) (seeds : List Nat) (v : Mat) : Prop :=
  (∀ n, v n 0 = true → ReachCl g safe seeds n) ∧
  (∀ n a, a ≠ 0 → v n a = true →
    v n 0 = true ∧
      ∃ e, e ∈ g.edges ∧ e.src = n ∧ e.action = a ∧ safe e = true ∧ v e.dst 0 = true)

/-- The set of nodes computed by `returnable_set`: from a node already in
the set, walk one reverse edge to `prev`, provided the forward edge that
`graph.get_edge_data(prev, node)` finds is safe. -/
inductive RetCl (g rg : DiGraph) (safe : Edge → Bool) (seeds : List Nat) : Nat → Prop where
  | seed {n : Nat} : n ∈ seeds → RetCl g rg safe seeds n
  | step {re d : Edge} : RetCl g rg safe seeds re.src → re ∈ rg.edges →
      getEdgeData g re.dst re.src = some d → safe d = true → RetCl g rg safe seeds re.dst

/-- All reverse edges out of `n` have been processed by the backward BFS. -/
def DischargedR (g rg : DiGraph) (safe : Edge → Bool) (v : Mat) (n : Nat) : Prop :=
  ∀ e, e ∈ rg.edges → e.src = n → ∀ d, getEdgeData g e.dst n = some d → safe d = true →
    v e.dst d.action = true ∧ v e.dst 0 = true

/-- Soundness invariant of the backward BFS. -/
def RetSound (g rg : DiGraph) (safe : Edge → Bool) (seeds : List Nat) (v : Mat) : Prop :=
  (∀ n, v n 0 = true → RetCl g rg safe seeds n) ∧
  (∀ m a, a ≠ 0 → v m a = true →
    v m 0 = true ∧
      ∃ re d, re ∈ rg.edges ∧ re.dst = m ∧ RetCl g rg safe seeds re.src ∧
        getEdgeData g m re.src = some d ∧ d.action = a ∧ safe d = true)

/-- The spec's data-model constraint "exactly one edge per (node, action)
pair": no two distinct edges share source and action label. -/
def UniqueActions (g : DiGraph) : Prop :=
  ∀ e1, e1 ∈ g.edges → ∀ e2, e2 ∈ g.edges → e1.src = e2.src → e1.action = e2.action →
    e1 = e2

/-- The `networkx.DiGraph` representation invariant: at most one edge per
ordered node pair. -/
def UniquePairs (g : DiGraph) : Prop :=
  ∀ e1, e1 ∈ g.edges → ∀ e2, e2 ∈ g.edges → e1.src = e2.src → e1.dst = e2.dst → e1 = e2

/-- The spec's data-model constraint "action 0 is reserved": no edge is
labelled with action 0. -/
def NonzeroActions (g : DiGraph) : Prop :=
  ∀ e, e ∈ g.edges → e.action ≠ 0

/-- Scenario A graph: the 3-node line `0 → 1 → 2`, single action `1`. -/
def g3 : DiGraph := ⟨3, [⟨0, 1, 1⟩, ⟨1, 2, 1⟩]⟩

/-- All edges labelled safe. -/
def safeT : Edge → Bool := fun _ => true

/-- Initial safe set marking exactly node 0. -/
def sh0A : Mat := fun n j => n == 0 && j == 0

/-- An empty GP observation store. -/
def gp0 : GP := ⟨[], []⟩

/-- Scenario A `SafeMDP` object. -/
def mdpA : SafeMDP := SafeMDP.init g3 gp0 sh0A 0 0 0 falseMat falseMat

/-- All-true matrix, used as "uninitialised memory" contents. -/
def trueMat : Mat := fun _ _ => true

/-- One-node, zero-edge graph. -/
def g1 : DiGraph := ⟨1, []⟩

/-- A `SafeMDP` built from an initial safe set with no true entry in
column 0, whose uninitialised `reach` memory happens to be all-true. -/
def mdpC2 : SafeMDP := SafeMDP.init g1 gp0 falseMat 0 0 0 trueMat falseMat

/-- Counterexample graph for monotonicity: node 0 has two out-edges that
share the action label 1 (legal in `networkx`, where an action is plain
edge metadata). -/
def gC4 : DiGraph := ⟨3, [⟨0, 1, 1⟩, ⟨0, 2, 1⟩]⟩

/-- Old labelling: only the edge into node 2 is safe. -/
def safeOldC4 : Edge → Bool := fun e => e.dst == 2

/-- The single edge whose label flips from unsafe to safe. -/
def e0C4 : Edge := ⟨0, 1, 1⟩

/-- New labelling: additionally the edge `0 → 1` is safe. -/
def safeNewC4 : Edge → Bool := fun e => if e = e0C4 then true else safeOldC4 e

/-- The `SafeMDP` object of the monotonicity counterexample. -/
def mdpC4 : SafeMDP := SafeMDP.init gC4 gp0 sh0A 0 0 0 falseMat falseMat

/-- Counterexample graph for the returnable/reachable symmetry: two edges
into node 0 that share the action label 1. -/
def gC6 : DiGraph := ⟨3, [⟨1, 0, 1⟩, ⟨2, 0, 1⟩]⟩

/-- A concrete non-symmetric base kernel on 1-dimensional points:
`k(u, v) = u₀ + 2·v₀`. -/
def kC9 : BaseKernel := ⟨1, fun u v => u.getD 0 0 + 2 * v.getD 0 0⟩

/-- The difference kernel over `kC9`. -/
def dkC9 : DifferenceKernel := ⟨kC9⟩

/-- One plain 1-dimensional test point, `x = (5)`. -/
def xC9 : List (List Rat) := [[5]]

/-- One concatenated pair of 1-dimensional points, `(a1, a2) = (1, 2)`. -/
def pC9 : List (List Rat) := [[1, 2]]

/-- A safety matrix for the linking claim: cell `(0, 1)` true. -/
def sigC10 : Mat := fun n a => n == 0 && a == 1

/-- A second safety matrix agreeing with `sigC10` on every
`(src, action)` cell of `g3`'s edges but differing at action 5. -/
def sigC10' : Mat := fun n a => (n == 0 && a == 1) || a == 5

/-! ### Basic lemmas: cells, seed marking, the termination measure -/

theorem setCell_true_iff {v : Mat} {i j a b : Nat} :
    setCell v i j a b = true ↔ (a = i ∧ b = j) ∨ v a b = true := by
  unfold setCell
  by_cases h : a = i ∧ b = j
  · simp [h]
  · simp [h]

theorem setCell_mono {v : Mat} {i j : Nat} : MatLE v (setCell v i j) := by
  intro a b h
  exact setCell_true_iff.mpr (Or.inr h)

theorem setCell_self {v : Mat} {i j : Nat} : setCell v i j i j = true := by
  simp [setCell]

theorem setCell_false {v : Mat} {i j a b : Nat} (h : setCell v i j a b = false) :
    v a b = false := by
  unfold setCell at h
  by_cases hc : a = i ∧ b = j
  · simp [hc] at h
  · simpa [hc] using h

theorem setCell_col0 {v : Mat} {i j a : Nat} (hj : j ≠ 0) : setCell v i j a 0 = v a 0 := by
  unfold setCell
  have hc : ¬(a = i ∧ (0 : Nat) = j) := by
    rintro ⟨_, h0⟩
    exact hj h0.symm
  simp [hc]

theorem matLE_refl (v : Mat) : MatLE v v := fun _ _ h => h

theorem matLE_trans {u v w : Mat} (h1 : MatLE u v) (h2 : MatLE v w) : MatLE u w :=
  fun a b h => h2 a b (h1 a b h)

theorem markSeeds_true_iff {ns : List Nat} :
    ∀ {v : Mat} {a b : Nat}, markSeeds v ns a b = true ↔ (a ∈ ns ∧ b = 0) ∨ v a b = true := by
  induction ns with
  | nil =>
    intro v a b
    simp [markSeeds]
  | cons n ns ih =>
    intro v a b
    show markSeeds (setCell v n 0) ns a b = true ↔ _
    rw [ih, setCell_true_iff]
    constructor
    · rintro (⟨hm, hb⟩ | (⟨ha, hb⟩ | hv))
      · exact Or.inl ⟨List.mem_cons_of_mem _ hm, hb⟩
      · exact Or.inl ⟨by simp [ha], hb⟩
      · exact Or.inr hv
    · rintro (⟨hm, hb⟩ | hv)
      · rcases List.mem_cons.mp hm with rfl | hm'
        · exact Or.inr (Or.inl ⟨rfl, hb⟩)
        · exact Or.inl ⟨hm', hb⟩
      · exact Or.inr (Or.inr hv)

theorem countP_le_of_imp {α : Type} {l : List α} {p q : α → Bool}
    (h : ∀ a ∈ l, p a = true → q a = true) : l.countP p ≤ l.countP q := by
  induction l with
  | nil => simp
  | cons a l ih =>
    rw [List.countP_cons, List.countP_cons]
    have h1 := ih (fun b hb => h b (List.mem_cons_of_mem _ hb))
    by_cases hp : p a = true
    · have hq := h a (List.mem_cons_self a l) hp
      rw [if_pos hp, if_pos hq]
      omega
    · rw [if_neg hp]
      omega

theorem countP_lt_of_witness {α : Type} {l : List α} {p q : α → Bool}
    (h : ∀ a ∈ l, p a = true → q a = true) {x : α} (hx : x ∈ l)
    (hpx : p x = false) (hqx : q x = true) : l.countP p < l.countP q := by
  induction l with
  | nil => cases hx
  | cons a l ih =>
    rw [List.countP_cons, List.countP_cons]
    rcases List.mem_cons.mp hx with rfl | hx'
    · have h1 := countP_le_of_imp (fun b hb => h b (List.mem_cons_of_mem _ hb))
      have hno : ¬(p x = true) := by simp [hpx]
      rw [if_neg hno, if_pos hqx]
      omega
    · have h2 := ih (fun b hb => h b (List.mem_cons_of_mem _ hb)) hx'
      have h3 : (if p a = true then 1 else 0) ≤ (if q a = true then 1 else 0) := by
        by_cases hp : p a = true
        · rw [if_pos hp, if_pos (h a (List.mem_cons_self a l) hp)]
        · rw [if_neg hp]
          omega
      omega

theorem unmarked_mono {B : Nat} {v w : Mat} (h : MatLE v w) :
    unmarked B w ≤ unmarked B v := by
  unfold unmarked
  apply countP_le_of_imp
  intro n _ hw
  rw [beq_iff_eq] at hw ⊢
  cases hv : v n 0
  · rfl
  · exact absurd (h n 0 hv) (by simp [hw])

theorem unmarked_setCell_le {B : Nat} {v : Mat} {i j : Nat} :
    unmarked B (setCell v i j) ≤ unmarked B v :=
  unmarked_mono setCell_mono

theorem unmarked_setCell_lt {B : Nat} {v : Mat} {i : Nat} (hi : i < B) (hv : v i 0 = false) :
    unmarked B (setCell v i 0) < unmarked B v := by
  unfold unmarked
  apply countP_lt_of_witness (x := i)
  · intro n _ hn
    rw [beq_iff_eq] at hn ⊢
    exact setCell_false hn
  · exact List.mem_range.mpr hi
  · simp [setCell_self]
  · simp [hv]

theorem nodeBound_list (l : List Edge) :
    ∀ e ∈ l, e.dst < l.foldr (fun e acc => max (e.dst + 1) acc) 0 := by
  induction l with
  | nil => intro e he; cases he
  | cons a l ih =>
    intro e he
    rcases List.mem_cons.mp he with rfl | he'
    · simp only [List.foldr_cons]
      omega
    · have := ih e he'
      simp only [List.foldr_cons]
      omega

theorem dst_lt_nodeBound {g : DiGraph} {e : Edge} (he : e ∈ g.edges) :
    e.dst < nodeBound g :=
  nodeBound_list g.edges e he

/-! ### Case analyses of a single BFS step -/

theorem reachStep_cases (safe : Edge → Bool) (v : Mat) (q : List Nat) (e : Edge) :
    (reachStep safe v q e = (setCell (setCell v e.src e.action) e.dst 0, q ++ [e.dst]) ∧
       v e.src e.action = false ∧ safe e = true ∧
       setCell v e.src e.action e.dst 0 = false) ∨
    (reachStep safe v q e = (setCell v e.src e.action, q) ∧
       v e.src e.action = false ∧ safe e = true ∧
       setCell v e.src e.action e.dst 0 = true) ∨
    (reachStep safe v q e = (v, q) ∧ ¬(v e.src e.action = false ∧ safe e = true)) := by
  by_cases h1 : v e.src e.action = false ∧ safe e = true
  · by_cases h2 : setCell v e.src e.action e.dst 0 = false
    · exact Or.inl ⟨by unfold reachStep; rw [if_pos h1, if_pos h2], h1.1, h1.2, h2⟩
    · refine Or.inr (Or.inl ⟨by unfold reachStep; rw [if_pos h1, if_neg h2], h1.1, h1.2, ?_⟩)
      cases h : setCell v e.src e.action e.dst 0
      · exact absurd h h2
      · rfl
  · exact Or.inr (Or.inr ⟨by unfold reachStep; rw [if_neg h1], h1⟩)

theorem returnStep_cases (g : DiGraph) (safe : Edge → Bool) (v : Mat) (q : List Nat)
    (e : Edge) :
    (getEdgeData g e.dst e.src = none ∧ returnStep g safe v q e = (v, q)) ∨
    (∃ d, getEdgeData g e.dst e.src = some d ∧
      ((returnStep g safe v q e =
            (setCell (setCell v e.dst d.action) e.dst 0, q ++ [e.dst]) ∧
          v e.dst d.action = false ∧ safe d = true ∧
          setCell v e.dst d.action e.dst 0 = false) ∨
       (returnStep g safe v q e = (setCell v e.dst d.action, q) ∧
          v e.dst d.action = false ∧ safe d = true ∧
          setCell v e.dst d.action e.dst 0 = true) ∨
       (returnStep g safe v q e = (v, q) ∧
          ¬(v e.dst d.action = false ∧ safe d = true)))) := by
  cases hd : getEdgeData g e.dst e.src with
  | none =>
    refine Or.inl ⟨rfl, ?_⟩
    unfold returnStep
    rw [hd]
  | some d =>
    refine Or.inr ⟨d, rfl, ?_⟩
    by_cases h1 : v e.dst d.action = false ∧ safe d = true
    · by_cases h2 : setCell v e.dst d.action e.dst 0 = false
      · refine Or.inl ⟨?_, h1.1, h1.2, h2⟩
        unfold returnStep
        rw [hd]
        dsimp only
        rw [if_pos h1, if_pos h2]
      · refine Or.inr (Or.inl ⟨?_, h1.1, h1.2, ?_⟩)
        · unfold returnStep
          rw [hd]
          dsimp only
          rw [if_pos h1, if_neg h2]
        · cases h : setCell v e.dst d.action e.dst 0
          · exact absurd h h2
          · rfl
    · refine Or.inr (Or.inr ⟨?_, h1⟩)
      unfold returnStep
      rw [hd]
      dsimp only
      rw [if_neg h1]

/-! ### The measure decreases; the canonical fuel is sufficient -/

theorem reachStep_measure (safe : Edge → Bool) (v : Mat) (q : List Nat) (e : Edge)
    {B : Nat} (hB : e.dst < B) :
    unmarked B (reachStep safe v q e).1 + (reachStep safe v q e).2.length ≤
      unmarked B v + q.length := by
  rcases reachStep_cases safe v q e with ⟨heq, _, _, h3⟩ | ⟨heq, _, _, _⟩ | ⟨heq, _⟩ <;>
    rw [heq] <;> dsimp only
  · have hlt := unmarked_setCell_lt (B := B) hB h3
    have hle : unmarked B (setCell v e.src e.action) ≤ unmarked B v := unmarked_setCell_le
    rw [List.length_append, List.length_singleton]
    omega
  · have hle : unmarked B (setCell v e.src e.action) ≤ unmarked B v := unmarked_setCell_le
    omega

theorem returnStep_measure (g : DiGraph) (safe : Edge → Bool) (v : Mat) (q : List Nat)
    (e : Edge) {B : Nat} (hB : e.dst < B) :
    unmarked B (returnStep g safe v q e).1 + (returnStep g safe v q e).2.length ≤
      unmarked B v + q.length := by
  rcases returnStep_cases g safe v q e with ⟨_, heq⟩ | ⟨d, _, hcc⟩
  · rw [heq]
  · rcases hcc with ⟨heq, _, _, h3⟩ | ⟨heq, _, _, _⟩ | ⟨heq, _⟩ <;> rw [heq] <;> dsimp only
    · have hlt := unmarked_setCell_lt (B := B) hB h3
      have hle : unmarked B (setCell v e.dst d.action) ≤ unmarked B v := unmarked_setCell_le
      rw [List.length_append, List.length_singleton]
      omega
    · have hle : unmarked B (setCell v e.dst d.action) ≤ unmarked B v := unmarked_setCell_le
      omega

theorem reachInner_measure {B : Nat} (safe : Edge → Bool) :
    ∀ (es : List Edge), (∀ e ∈ es, e.dst < B) → ∀ (v : Mat) (q : List Nat),
      unmarked B (reachInner safe es v q).1 + (reachInner safe es v q).2.length ≤
        unmarked B v + q.length := by
  intro es
  induction es with
  | nil =>
    intro _ v q
    simp [reachInner]
  | cons e rest ih =>
    intro hB v q
    have h1 := reachStep_measure safe v q e (hB e (List.mem_cons_self e rest))
    have h2 := ih (fun x hx => hB x (List.mem_cons_of_mem _ hx))
      (reachStep safe v q e).1 (reachStep safe v q e).2
    exact le_trans h2 h1

theorem returnInner_measure {B : Nat} (g : DiGraph) (safe : Edge → Bool) :
    ∀ (es : List Edge), (∀ e ∈ es, e.dst < B) → ∀ (v : Mat) (q : List Nat),
      unmarked B (returnInner g safe es v q).1 + (returnInner g safe es v q).2.length ≤
        unmarked B v + q.length := by
  intro es
  induction es with
  | nil =>
    intro _ v q
    simp [returnInner]
  | cons e rest ih =>
    intro hB v q
    have h1 := returnStep_measure g safe v q e (hB e (List.mem_cons_self e rest))
    have h2 := ih (fun x hx => hB x (List.mem_cons_of_mem _ hx))
      (returnStep g safe v q e).1 (returnStep g safe v q e).2
    exact le_trans h2 h1

theorem reachGo_nil (g : DiGraph) (safe : Edge → Bool) (fuel : Nat) (v : Mat) :
    reachGo g safe fuel [] v = v := by
  cases fuel <;> rfl

theorem returnGo_nil (g rg : DiGraph) (safe : Edge → Bool) (fuel : Nat) (v : Mat) :
    returnGo g rg safe fuel [] v = v := by
  cases fuel <;> rfl

theorem reachGo_fuel_add (g : DiGraph) (safe : Edge → Bool) :
    ∀ (fuel : Nat) (q : List Nat) (v : Mat),
      unmarked (nodeBound g) v + q.length ≤ fuel → ∀ extra : Nat,
        reachGo g safe (fuel + extra) q v = reachGo g safe fuel q v := by
  intro fuel
  induction fuel with
  | zero =>
    intro q v h extra
    have hq : q = [] := List.length_eq_zero.mp (by omega)
    subst hq
    rw [reachGo_nil, reachGo_nil]
  | succ fuel ih =>
    intro q v h extra
    cases q with
    | nil => rw [reachGo_nil, reachGo_nil]
    | cons node rest =>
      have hstep : fuel + 1 + extra = (fuel + extra) + 1 := by omega
      rw [hstep]
      show reachGo g safe (fuel + extra) (reachInner safe (outEdges g node) v rest).2
          (reachInner safe (outEdges g node) v rest).1 =
        reachGo g safe fuel (reachInner safe (outEdges g node) v rest).2
          (reachInner safe (outEdges g node) v rest).1
      have hmeas := reachInner_measure safe (outEdges g node)
        (fun e he => dst_lt_nodeBound (List.mem_of_mem_filter he)) v rest
      apply ih
      have hlen : (node :: rest).length = rest.length + 1 := rfl
      omega

theorem returnGo_fuel_add (g rg : DiGraph) (safe : Edge → Bool) :
    ∀ (fuel : Nat) (q : List Nat) (v : Mat),
      unmarked (nodeBound rg) v + q.length ≤ fuel → ∀ extra : Nat,
        returnGo g rg safe (fuel + extra) q v = returnGo g rg safe fuel q v := by
  intro fuel
  induction fuel with
  | zero =>
    intro q v h extra
    have hq : q = [] := List.length_eq_zero.mp (by omega)
    subst hq
    rw [returnGo_nil, returnGo_nil]
  | succ fuel ih =>
    intro q v h extra
    cases q with
    | nil => rw [returnGo_nil, returnGo_nil]
    | cons node rest =>
      have hstep : fuel + 1 + extra = (fuel + extra) + 1 := by omega
      rw [hstep]
      show returnGo g rg safe (fuel + extra) (returnInner g safe (outEdges rg node) v rest).2
          (returnInner g safe (outEdges rg node) v rest).1 =
        returnGo g rg safe fuel (returnInner g safe (outEdges rg node) v rest).2
          (returnInner g safe (outEdges rg node) v rest).1
      have hmeas := returnInner_measure g safe (outEdges rg node)
        (fun e he => dst_lt_nodeBound (List.mem_of_mem_filter he)) v rest
      apply ih
      have hlen : (node :: rest).length = rest.length + 1 := rfl
      omega

/-! ### Invariants of the forward BFS -/

theorem discharged_mono {g : DiGraph} {safe : Edge → Bool} {v w : Mat} {n : Nat}
    (hd : Discharged g safe v n) (h : MatLE v w) : Discharged g safe w n := by
  intro e hm hs hsafe hane
  obtain ⟨h1, h2⟩ := hd e hm hs hsafe hane
  exact ⟨h n e.action h1, h e.dst 0 h2⟩

theorem reachStep_mono (safe : Edge → Bool) (v : Mat) (q : List Nat) (e : Edge) :
    MatLE v (reachStep safe v q e).1 := by
  rcases reachStep_cases safe v q e with ⟨heq, _⟩ | ⟨heq, _⟩ | ⟨heq, _⟩ <;> rw [heq]
  · exact matLE_trans setCell_mono setCell_mono
  · exact setCell_mono
  · exact matLE_refl v

theorem reachStep_queue (safe : Edge → Bool) (v : Mat) (q : List Nat) (e : Edge) :
    ∃ t, (reachStep safe v q e).2 = q ++ t ∧
      ∀ n ∈ t, (reachStep safe v q e).1 n 0 = true := by
  rcases reachStep_cases safe v q e with ⟨heq, _⟩ | ⟨heq, _⟩ | ⟨heq, _⟩
  · refine ⟨[e.dst], by rw [heq], ?_⟩
    intro n hn
    have hn' := List.mem_singleton.mp hn
    subst hn'
    rw [heq]
    exact setCell_self
  · exact ⟨[], by rw [heq, List.append_nil], by simp⟩
  · exact ⟨[], by rw [heq, List.append_nil], by simp⟩

theorem reachStep_col0_new (safe : Edge → Bool) (v : Mat) (q : List Nat) (e : Edge)
    (hsrc : v e.src 0 = true) :
    ∀ n, (reachStep safe v q e).1 n 0 = true →
      v n 0 = true ∨ n ∈ (reachStep safe v q e).2 := by
  intro n hn
  rcases reachStep_cases safe v q e with ⟨heq, _, _, _⟩ | ⟨heq, _, _, _⟩ | ⟨heq, _⟩ <;>
      rw [heq] at hn
  · rcases setCell_true_iff.mp hn with ⟨rfl, _⟩ | hn1
    · right
      rw [heq]
      exact List.mem_append_right q (List.mem_singleton.mpr rfl)
    · rcases setCell_true_iff.mp hn1 with ⟨hns, _⟩ | hnv
      · subst hns
        exact Or.inl hsrc
      · exact Or.inl hnv
  · rcases setCell_true_iff.mp hn with ⟨hns, _⟩ | hnv
    · subst hns
      exact Or.inl hsrc
    · exact Or.inl hnv
  · exact Or.inl hn

theorem reachStep_sound (g : DiGraph) (safe : Edge → Bool) (seeds : List Nat)
    (v : Mat) (q : List Nat) (e : Edge) (hmem : e ∈ g.edges) (hsrc : v e.src 0 = true)
    (hcl : ReachCl g safe seeds e.src) (hS : ReachSound g safe seeds v) :
    ReachSound g safe seeds (reachStep safe v q e).1 := by
  rcases reachStep_cases safe v q e with ⟨heq, h1, h2, h3⟩ | ⟨heq, h1, h2, h3⟩ | ⟨heq, _⟩ <;>
      rw [heq]
  · have hane : e.action ≠ 0 := by
      intro h0
      rw [h0, hsrc] at h1
      cases h1
    constructor
    · intro n hn
      rcases setCell_true_iff.mp hn with ⟨rfl, _⟩ | hn1
      · exact ReachCl.step hcl hmem h2 hane
      · rcases setCell_true_iff.mp hn1 with ⟨hns, h0a⟩ | hnv
        · exact absurd h0a.symm hane
        · exact hS.1 n hnv
    · intro n a ha hn
      rcases setCell_true_iff.mp hn with ⟨_, ha0⟩ | hn1
      · exact absurd ha0 ha
      · rcases setCell_true_iff.mp hn1 with ⟨hns, haa⟩ | hnv
        · subst hns
          subst haa
          refine ⟨matLE_trans setCell_mono setCell_mono e.src 0 hsrc,
            e, hmem, rfl, rfl, h2, setCell_self⟩
        · obtain ⟨hv0, e', hmem', hsrc', hact', hsafe', hdst'⟩ := hS.2 n a ha hnv
          exact ⟨matLE_trans setCell_mono setCell_mono n 0 hv0, e', hmem', hsrc', hact',
            hsafe', matLE_trans setCell_mono setCell_mono e'.dst 0 hdst'⟩
  · have hane : e.action ≠ 0 := by
      intro h0
      rw [h0, hsrc] at h1
      cases h1
    constructor
    · intro n hn
      rcases setCell_true_iff.mp hn with ⟨hns, h0a⟩ | hnv
      · exact absurd h0a.symm hane
      · exact hS.1 n hnv
    · intro n a ha hn
      rcases setCell_true_iff.mp hn with ⟨hns, haa⟩ | hnv
      · subst hns
        subst haa
        exact ⟨setCell_mono e.src 0 hsrc, e, hmem, rfl, rfl, h2, h3⟩
      · obtain ⟨hv0, e', hmem', hsrc', hact', hsafe', hdst'⟩ := hS.2 n a ha hnv
        exact ⟨setCell_mono n 0 hv0, e', hmem', hsrc', hact', hsafe',
          setCell_mono e'.dst 0 hdst'⟩
  · exact hS

theorem reachStep_discharge (g : DiGraph) (safe : Edge → Bool) (seeds : List Nat)
    (hU : UniqueActions g) (v : Mat) (q : List Nat) (e : Edge) (hmem : e ∈ g.edges)
    (hS : ReachSound g safe seeds v) (hsafe : safe e = true) (hane : e.action ≠ 0) :
    (reachStep safe v q e).1 e.src e.action = true ∧
    (reachStep safe v q e).1 e.dst 0 = true := by
  rcases reachStep_cases safe v q e with ⟨heq, h1, h2, h3⟩ | ⟨heq, h1, h2, h3⟩ | ⟨heq, hneg⟩ <;>
      rw [heq]
  · exact ⟨setCell_true_iff.mpr (Or.inr setCell_self), setCell_self⟩
  · exact ⟨setCell_self, h3⟩
  · have hv : v e.src e.action = true := by
      cases hv : v e.src e.action
      · exact absurd ⟨hv, hsafe⟩ hneg
      · rfl
    obtain ⟨_, e', hmem', hsrc', hact', _, hdst'⟩ := hS.2 e.src e.action hane hv
    have hee : e = e' := hU e hmem e' hmem' hsrc'.symm hact'.symm
    rw [← hee] at hdst'
    exact ⟨hv, hdst'⟩

theorem reachInner_spec (g : DiGraph) (safe : Edge → Bool) (seeds : List Nat)
    (hU : UniqueActions g) (node : Nat) :
    ∀ (es : List Edge), (∀ e ∈ es, e ∈ g.edges ∧ e.src = node) →
      ∀ (v : Mat) (q : List Nat), v node 0 = true → ReachCl g safe seeds node →
        ReachSound g safe seeds v → (∀ n ∈ q, v n 0 = true) →
        MatLE v (reachInner safe es v q).1 ∧
        (∀ n ∈ q, n ∈ (reachInner safe es v q).2) ∧
        (∀ n ∈ (reachInner safe es v q).2, (reachInner safe es v q).1 n 0 = true) ∧
        (∀ n, (reachInner safe es v q).1 n 0 = true →
          v n 0 = true ∨ n ∈ (reachInner safe es v q).2) ∧
        ReachSound g safe seeds (reachInner safe es v q).1 ∧
        (∀ e ∈ es, safe e = true → e.action ≠ 0 →
          (reachInner safe es v q).1 e.src e.action = true ∧
          (reachInner safe es v q).1 e.dst 0 = true) := by
  intro es
  induction es with
  | nil =>
    intro _ v q hnode hcl hS hq
    refine ⟨matLE_refl v, fun n hn => hn, hq, fun n hn => Or.inl hn, hS, ?_⟩
    intro e he
    cases he
  | cons e rest ih =>
    intro hes v q hnode hcl hS hq
    have hmem : e ∈ g.edges := (hes e (List.mem_cons_self e rest)).1
    have hsrceq : e.src = node := (hes e (List.mem_cons_self e rest)).2
    have hsrc : v e.src 0 = true := by rw [hsrceq]; exact hnode
    have hcle : ReachCl g safe seeds e.src := by rw [hsrceq]; exact hcl
    have hmono1 := reachStep_mono safe v q e
    obtain ⟨t, hqeq, htm⟩ := reachStep_queue safe v q e
    have hq1 : ∀ n ∈ (reachStep safe v q e).2, (reachStep safe v q e).1 n 0 = true := by
      intro n hn
      rw [hqeq] at hn
      rcases List.mem_append.mp hn with hn' | hn'
      · exact hmono1 n 0 (hq n hn')
      · exact htm n hn'
    have hS1 := reachStep_sound g safe seeds v q e hmem hsrc hcle hS
    have hnode1 : (reachStep safe v q e).1 node 0 = true := hmono1 node 0 hnode
    obtain ⟨m2, sub2, qm2, new2, hS2, dis2⟩ :=
      ih (fun x hx => hes x (List.mem_cons_of_mem _ hx))
        (reachStep safe v q e).1 (reachStep safe v q e).2 hnode1 hcl hS1 hq1
    have hshow : reachInner safe (e :: rest) v q =
        reachInner safe rest (reachStep safe v q e).1 (reachStep safe v q e).2 := rfl
    rw [hshow]
    refine ⟨matLE_trans hmono1 m2, ?_, qm2, ?_, hS2, ?_⟩
    · intro n hn
      apply sub2
      rw [hqeq]
      exact List.mem_append_left t hn
    · intro n hn
      rcases new2 n hn with h1 | h2
      · rcases reachStep_col0_new safe v q e hsrc n h1 with h3 | h4
        · exact Or.inl h3
        · exact Or.inr (sub2 n h4)
      · exact Or.inr h2
    · intro x hx hxsafe hxane
      rcases List.mem_cons.mp hx with rfl | hx'
      · have hd := reachStep_discharge g safe seeds hU v q x hmem hS hxsafe hxane
        exact ⟨m2 x.src x.action hd.1, m2 x.dst 0 hd.2⟩
      · exact dis2 x hx' hxsafe hxane

theorem reachGo_spec (g : DiGraph) (safe : Edge → Bool) (seeds : List Nat)
    (hU : UniqueActions g) :
    ∀ (fuel : Nat) (q : List Nat) (v : Mat),
      unmarked (nodeBound g) v + q.length ≤ fuel →
      ReachSound g safe seeds v →
      (∀ n ∈ q, v n 0 = true) →
      (∀ n, v n 0 = true → n ∈ q ∨ Discharged g safe v n) →
      MatLE v (reachGo g safe fuel q v) ∧
      ReachSound g safe seeds (reachGo g safe fuel q v) ∧
      (∀ n, (reachGo g safe fuel q v) n 0 = true →
        Discharged g safe (reachGo g safe fuel q v) n) := by
  intro fuel
  induction fuel with
  | zero =>
    intro q v h hS hq hdis
    have hq0 : q = [] := List.length_eq_zero.mp (by omega)
    subst hq0
    rw [reachGo_nil]
    refine ⟨matLE_refl v, hS, ?_⟩
    intro n hn
    rcases hdis n hn with hmem | hd
    · cases hmem
    · exact hd
  | succ fuel ih =>
    intro q v h hS hq hdis
    cases q with
    | nil =>
      rw [reachGo_nil]
      refine ⟨matLE_refl v, hS, ?_⟩
      intro n hn
      rcases hdis n hn with hmem | hd
      · cases hmem
      · exact hd
    | cons node rest =>
      have hes : ∀ e ∈ outEdges g node, e ∈ g.edges ∧ e.src = node := by
        intro e he
        have h1 := List.mem_filter.mp he
        refine ⟨h1.1, ?_⟩
        have := h1.2
        rwa [beq_iff_eq] at this
      have hnode : v node 0 = true := hq node (List.mem_cons_self _ _)
      have hcl : ReachCl g safe seeds node := hS.1 node hnode
      have hrest : ∀ n ∈ rest, v n 0 = true := fun n hn => hq n (List.mem_cons_of_mem _ hn)
      obtain ⟨hmono, hsub, hqm, hnew, hS', hdischarged⟩ :=
        reachInner_spec g safe seeds hU node (outEdges g node) hes v rest hnode hcl hS hrest
      have hstep : reachGo g safe (fuel + 1) (node :: rest) v =
          reachGo g safe fuel (reachInner safe (outEdges g node) v rest).2
            (reachInner safe (outEdges g node) v rest).1 := rfl
      rw [hstep]
      have hmeas := reachInner_measure safe (outEdges g node)
        (fun e he => dst_lt_nodeBound (List.mem_of_mem_filter he)) v rest
      have hdis' : ∀ n, (reachInner safe (outEdges g node) v rest).1 n 0 = true →
          n ∈ (reachInner safe (outEdges g node) v rest).2 ∨
          Discharged g safe (reachInner safe (outEdges g node) v rest).1 n := by
        intro n hn
        rcases hnew n hn with hold | hmem2
        · rcases hdis n hold with hq1 | hd
          · rcases List.mem_cons.mp hq1 with rfl | hrest'
            · right
              intro x hxmem hxsrc hxsafe hxane
              have hxout : x ∈ outEdges g n :=
                List.mem_filter.mpr ⟨hxmem, by rw [beq_iff_eq]; exact hxsrc⟩
              have hdd := hdischarged x hxout hxsafe hxane
              rw [hxsrc] at hdd
              exact hdd
            · exact Or.inl (hsub n hrest')
          · exact Or.inr (discharged_mono hd hmono)
        · exact Or.inl hmem2
      obtain ⟨m2, s2, d2⟩ := ih (reachInner safe (outEdges g node) v rest).2
        (reachInner safe (outEdges g node) v rest).1
        (by have hlen : (node :: rest).length = rest.length + 1 := rfl; omega)
        hS' hqm hdis'
      exact ⟨matLE_trans hmono m2, s2, d2⟩

theorem markSeeds_clean_iff {seeds : List Nat} {a b : Nat} :
    markSeeds falseMat seeds a b = true ↔ a ∈ seeds ∧ b = 0 := by
  rw [markSeeds_true_iff]
  constructor
  · rintro (h | h)
    · exact h
    · cases h
  · exact Or.inl

theorem reachRun_spec (g : DiGraph) (safe : Edge → Bool) (seeds : List Nat)
    (hU : UniqueActions g) :
    MatLE (markSeeds falseMat seeds) (reachRun g safe seeds falseMat) ∧
    ReachSound g safe seeds (reachRun g safe seeds falseMat) ∧
    (∀ n, (reachRun g safe seeds falseMat) n 0 = true →
      Discharged g safe (reachRun g safe seeds falseMat) n) := by
  have hS0 : ReachSound g safe seeds (markSeeds falseMat seeds) := by
    constructor
    · intro n hn
      exact ReachCl.seed (markSeeds_clean_iff.mp hn).1
    · intro n a ha hn
      exact absurd (markSeeds_clean_iff.mp hn).2 ha
  have hq0 : ∀ n ∈ seeds, markSeeds falseMat seeds n 0 = true := by
    intro n hn
    exact markSeeds_clean_iff.mpr ⟨hn, rfl⟩
  have hdis0 : ∀ n, markSeeds falseMat seeds n 0 = true →
      n ∈ seeds ∨ Discharged g safe (markSeeds falseMat seeds) n := by
    intro n hn
    exact Or.inl (markSeeds_clean_iff.mp hn).1
  exact ⟨(reachGo_spec g safe seeds hU _ seeds (markSeeds falseMat seeds)
      (le_refl _) hS0 hq0 hdis0).1,
    (reachGo_spec g safe seeds hU _ seeds (markSeeds falseMat seeds)
      (le_refl _) hS0 hq0 hdis0).2.1,
    (reachGo_spec g safe seeds hU _ seeds (markSeeds falseMat seeds)
      (le_refl _) hS0 hq0 hdis0).2.2⟩

theorem reachRun_col0 (g : DiGraph) (safe : Edge → Bool) (seeds : List Nat)
    (hU : UniqueActions g) (n : Nat) :
    reachRun g safe seeds falseMat n 0 = true ↔ ReachCl g safe seeds n := by
  obtain ⟨hmono, hS, hdis⟩ := reachRun_spec g safe seeds hU
  constructor
  · exact hS.1 n
  · intro hcl
    induction hcl with
    | seed hn => exact hmono _ 0 (markSeeds_clean_iff.mpr ⟨hn, rfl⟩)
    | step hcl hmem hsafe hane ih =>
      exact ((hdis _ ih) _ hmem rfl hsafe hane).2

theorem reachRun_cell (g : DiGraph) (safe : Edge → Bool) (seeds : List Nat)
    (hU : UniqueActions g) (n a : Nat) (ha : a ≠ 0) :
    reachRun g safe seeds falseMat n a = true ↔
      (ReachCl g safe seeds n ∧
        ∃ e, e ∈ g.edges ∧ e.src = n ∧ e.action = a ∧ safe e = true) := by
  obtain ⟨hmono, hS, hdis⟩ := reachRun_spec g safe seeds hU
  constructor
  · intro hn
    obtain ⟨h0, e, hmem, hsrc, hact, hsafe, _⟩ := hS.2 n a ha hn
    exact ⟨hS.1 n h0, e, hmem, hsrc, hact, hsafe⟩
  · rintro ⟨hcl, e, hmem, hsrc, hact, hsafe⟩
    have h0 : reachRun g safe seeds falseMat n 0 = true :=
      (reachRun_col0 g safe seeds hU n).mpr hcl
    have hane : e.action ≠ 0 := by rw [hact]; exact ha
    have hd := (hdis n h0) e hmem hsrc hsafe hane
    rw [← hact]
    exact hd.1

/-! ### Invariants of the backward BFS -/

theorem getEdgeData_mem {g : DiGraph} {u v : Nat} {d : Edge}
    (h : getEdgeData g u v = some d) : d ∈ g.edges :=
  List.mem_of_find?_eq_some h

theorem getEdgeData_action_ne {g : DiGraph} {u v : Nat} {d : Edge}
    (hA : NonzeroActions g) (h : getEdgeData g u v = some d) : d.action ≠ 0 :=
  hA d (getEdgeData_mem h)

theorem dischargedR_mono {g rg : DiGraph} {safe : Edge → Bool} {v w : Mat} {n : Nat}
    (hd : DischargedR g rg safe v n) (h : MatLE v w) : DischargedR g rg safe w n := by
  intro e hm hs d hld hsafe
  obtain ⟨h1, h2⟩ := hd e hm hs d hld hsafe
  exact ⟨h e.dst d.action h1, h e.dst 0 h2⟩

theorem returnStep_mono (g : DiGraph) (safe : Edge → Bool) (v : Mat) (q : List Nat)
    (e : Edge) : MatLE v (returnStep g safe v q e).1 := by
  rcases returnStep_cases g safe v q e with ⟨_, heq⟩ | ⟨d, _, hcc⟩
  · rw [heq]
    exact matLE_refl v
  · rcases hcc with ⟨heq, _⟩ | ⟨heq, _⟩ | ⟨heq, _⟩ <;> rw [heq]
    · exact matLE_trans setCell_mono setCell_mono
    · exact setCell_mono
    · exact matLE_refl v

theorem returnStep_queue (g : DiGraph) (safe : Edge → Bool) (v : Mat) (q : List Nat)
    (e : Edge) :
    ∃ t, (returnStep g safe v q e).2 = q ++ t ∧
      ∀ n ∈ t, (returnStep g safe v q e).1 n 0 = true := by
  rcases returnStep_cases g safe v q e with ⟨_, heq⟩ | ⟨d, _, hcc⟩
  · exact ⟨[], by rw [heq, List.append_nil], by simp⟩
  · rcases hcc with ⟨heq, _⟩ | ⟨heq, _⟩ | ⟨heq, _⟩
    · refine ⟨[e.dst], by rw [heq], ?_⟩
      intro n hn
      have hn' := List.mem_singleton.mp hn
      subst hn'
      rw [heq]
      exact setCell_self
    · exact ⟨[], by rw [heq, List.append_nil], by simp⟩
    · exact ⟨[], by rw [heq, List.append_nil], by simp⟩

theorem returnStep_col0_new (g : DiGraph) (safe : Edge → Bool) (v : Mat) (q : List Nat)
    (e : Edge) (hA : NonzeroActions g) :
    ∀ n, (returnStep g safe v q e).1 n 0 = true →
      v n 0 = true ∨ n ∈ (returnStep g safe v q e).2 := by
  intro n hn
  rcases returnStep_cases g safe v q e with ⟨_, heq⟩ | ⟨d, hlook, hcc⟩
  · rw [heq] at hn
    exact Or.inl hn
  · have hane : d.action ≠ 0 := getEdgeData_action_ne hA hlook
    rcases hcc with ⟨heq, _⟩ | ⟨heq, _⟩ | ⟨heq, _⟩ <;> rw [heq] at hn
    · rcases setCell_true_iff.mp hn with ⟨rfl, _⟩ | hn1
      · right
        rw [heq]
        exact List.mem_append_right q (List.mem_singleton.mpr rfl)
      · rcases setCell_true_iff.mp hn1 with ⟨_, h0a⟩ | hnv
        · exact absurd h0a.symm hane
        · exact Or.inl hnv
    · rcases setCell_true_iff.mp hn with ⟨_, h0a⟩ | hnv
      · exact absurd h0a.symm hane
      · exact Or.inl hnv
    · exact Or.inl hn

theorem returnStep_sound (g rg : DiGraph) (safe : Edge → Bool) (seeds : List Nat)
    (v : Mat) (q : List Nat) (e : Edge) (hA : NonzeroActions g) (hremem : e ∈ rg.edges)
    (hcl : RetCl g rg safe seeds e.src) (hS : RetSound g rg safe seeds v) :
    RetSound g rg safe seeds (returnStep g safe v q e).1 := by
  rcases returnStep_cases g safe v q e with ⟨_, heq⟩ | ⟨d, hlook, hcc⟩
  · rw [heq]
    exact hS
  · have hane : d.action ≠ 0 := getEdgeData_action_ne hA hlook
    rcases hcc with ⟨heq, h1, h2, h3⟩ | ⟨heq, h1, h2, h3⟩ | ⟨heq, _⟩ <;> rw [heq]
    · constructor
      · intro n hn
        rcases setCell_true_iff.mp hn with ⟨rfl, _⟩ | hn1
        · exact RetCl.step hcl hremem hlook h2
        · rcases setCell_true_iff.mp hn1 with ⟨_, h0a⟩ | hnv
          · exact absurd h0a.symm hane
          · exact hS.1 n hnv
      · intro m a ha hn
        rcases setCell_true_iff.mp hn with ⟨_, ha0⟩ | hn1
        · exact absurd ha0 ha
        · rcases setCell_true_iff.mp hn1 with ⟨hms, haa⟩ | hnv
          · subst hms
            subst haa
            exact ⟨setCell_self, e, d, hremem, rfl, hcl, hlook, rfl, h2⟩
          · obtain ⟨hv0, re', d', hm', hd', hcl', hl', ha', hs'⟩ := hS.2 m a ha hnv
            exact ⟨matLE_trans setCell_mono setCell_mono m 0 hv0,
              re', d', hm', hd', hcl', hl', ha', hs'⟩
    · have hv0dst : v e.dst 0 = true := by
        rw [setCell_col0 hane] at h3
        exact h3
      constructor
      · intro n hn
        rcases setCell_true_iff.mp hn with ⟨_, h0a⟩ | hnv
        · exact absurd h0a.symm hane
        · exact hS.1 n hnv
      · intro m a ha hn
        rcases setCell_true_iff.mp hn with ⟨hms, haa⟩ | hnv
        · subst hms
          subst haa
          exact ⟨h3, e, d, hremem, rfl, hcl, hlook, rfl, h2⟩
        · obtain ⟨hv0, re', d', hm', hd', hcl', hl', ha', hs'⟩ := hS.2 m a ha hnv
          exact ⟨setCell_mono m 0 hv0, re', d', hm', hd', hcl', hl', ha', hs'⟩
    · exact hS

theorem returnStep_discharge (g rg : DiGraph) (safe : Edge → Bool) (seeds : List Nat)
    (v : Mat) (q : List Nat) (e : Edge) (hA : NonzeroActions g)
    (hS : RetSound g rg safe seeds v) {d : Edge}
    (hlook : getEdgeData g e.dst e.src = some d) (hsafe : safe d = true) :
    (returnStep g safe v q e).1 e.dst d.action = true ∧
    (returnStep g safe v q e).1 e.dst 0 = true := by
  have hane : d.action ≠ 0 := getEdgeData_action_ne hA hlook
  rcases returnStep_cases g safe v q e with ⟨hnone, _⟩ | ⟨d', hlook', hcc⟩
  · rw [hnone] at hlook
    cases hlook
  · rw [hlook'] at hlook
    have hdd : d' = d := Option.some.inj hlook
    subst hdd
    rcases hcc with ⟨heq, h1, h2, h3⟩ | ⟨heq, h1, h2, h3⟩ | ⟨heq, hneg⟩ <;> rw [heq]
    · exact ⟨setCell_true_iff.mpr (Or.inr setCell_self), setCell_self⟩
    · exact ⟨setCell_self, h3⟩
    · have hv : v e.dst d'.action = true := by
        cases hv : v e.dst d'.action
        · exact absurd ⟨hv, hsafe⟩ hneg
        · rfl
      have hv0 := (hS.2 e.dst d'.action hane hv).1
      exact ⟨hv, hv0⟩

theorem returnInner_spec (g rg : DiGraph) (safe : Edge → Bool) (seeds : List Nat)
    (hA : NonzeroActions g) (node : Nat) :
    ∀ (es : List Edge), (∀ e ∈ es, e ∈ rg.edges ∧ e.src = node) →
      ∀ (v : Mat) (q : List Nat), RetCl g rg safe seeds node →
        RetSound g rg safe seeds v → (∀ n ∈ q, v n 0 = true) →
        MatLE v (returnInner g safe es v q).1 ∧
        (∀ n ∈ q, n ∈ (returnInner g safe es v q).2) ∧
        (∀ n ∈ (returnInner g safe es v q).2, (returnInner g safe es v q).1 n 0 = true) ∧
        (∀ n, (returnInner g safe es v q).1 n 0 = true →
          v n 0 = true ∨ n ∈ (returnInner g safe es v q).2) ∧
        RetSound g rg safe seeds (returnInner g safe es v q).1 ∧
        (∀ e ∈ es, ∀ d, getEdgeData g e.dst e.src = some d → safe d = true →
          (returnInner g safe es v q).1 e.dst d.action = true ∧
          (returnInner g safe es v q).1 e.dst 0 = true) := by
  intro es
  induction es with
  | nil =>
    intro _ v q _ hS hq
    refine ⟨matLE_refl v, fun n hn => hn, hq, fun n hn => Or.inl hn, hS, ?_⟩
    intro e he
    cases he
  | cons e rest ih =>
    intro hes v q hcl hS hq
    have hremem : e ∈ rg.edges := (hes e (List.mem_cons_self e rest)).1
    have hsrceq : e.src = node := (hes e (List.mem_cons_self e rest)).2
    have hcle : RetCl g rg safe seeds e.src := by rw [hsrceq]; exact hcl
    have hmono1 := returnStep_mono g safe v q e
    obtain ⟨t, hqeq, htm⟩ := returnStep_queue g safe v q e
    have hq1 : ∀ n ∈ (returnStep g safe v q e).2, (returnStep g safe v q e).1 n 0 = true := by
      intro n hn
      rw [hqeq] at hn
      rcases List.mem_append.mp hn with hn' | hn'
      · exact hmono1 n 0 (hq n hn')
      · exact htm n hn'
    have hS1 := returnStep_sound g rg safe seeds v q e hA hremem hcle hS
    obtain ⟨m2, sub2, qm2, new2, hS2, dis2⟩ :=
      ih (fun x hx => hes x (List.mem_cons_of_mem _ hx))
        (returnStep g safe v q e).1 (returnStep g safe v q e).2 hcl hS1 hq1
    have hshow : returnInner g safe (e :: rest) v q =
        returnInner g safe rest (returnStep g safe v q e).1 (returnStep g safe v q e).2 := rfl
    rw [hshow]
    refine ⟨matLE_trans hmono1 m2, ?_, qm2, ?_, hS2, ?_⟩
    · intro n hn
      apply sub2
      rw [hqeq]
      exact List.mem_append_left t hn
    · intro n hn
      rcases new2 n hn with h1 | h2
      · rcases returnStep_col0_new g safe v q e hA n h1 with h3 | h4
        · exact Or.inl h3
        · exact Or.inr (sub2 n h4)
      · exact Or.inr h2
    · intro x hx d hlook hdsafe
      rcases List.mem_cons.mp hx with rfl | hx'
      · have hd := returnStep_discharge g rg safe seeds v q x hA hS hlook hdsafe
        exact ⟨m2 x.dst d.action hd.1, m2 x.dst 0 hd.2⟩
      · exact dis2 x hx' d hlook hdsafe

theorem returnGo_spec (g rg : DiGraph) (safe : Edge → Bool) (seeds : List Nat)
    (hA : NonzeroActions g) :
    ∀ (fuel : Nat) (q : List Nat) (v : Mat),
      unmarked (nodeBound rg) v + q.length ≤ fuel →
      RetSound g rg safe seeds v →
      (∀ n ∈ q, v n 0 = true) →
      (∀ n, v n 0 = true → n ∈ q ∨ DischargedR g rg safe v n) →
      MatLE v (returnGo g rg safe fuel q v) ∧
      RetSound g rg safe seeds (returnGo g rg safe fuel q v) ∧
      (∀ n, (returnGo g rg safe fuel q v) n 0 = true →
        DischargedR g rg safe (returnGo g rg safe fuel q v) n) := by
  intro fuel
  induction fuel with
  | zero =>
    intro q v h hS hq hdis
    have hq0 : q = [] := List.length_eq_zero.mp (by omega)
    subst hq0
    rw [returnGo_nil]
    refine ⟨matLE_refl v, hS, ?_⟩
    intro n hn
    rcases hdis n hn with hmem | hd
    · cases hmem
    · exact hd
  | succ fuel ih =>
    intro q v h hS hq hdis
    cases q with
    | nil =>
      rw [returnGo_nil]
      refine ⟨matLE_refl v, hS, ?_⟩
      intro n hn
      rcases hdis n hn with hmem | hd
      · cases hmem
      · exact hd
    | cons node rest =>
      have hes : ∀ e ∈ outEdges rg node, e ∈ rg.edges ∧ e.src = node := by
        intro e he
        have h1 := List.mem_filter.mp he
        refine ⟨h1.1, ?_⟩
        have := h1.2
        rwa [beq_iff_eq] at this
      have hnode : v node 0 = true := hq node (List.mem_cons_self _ _)
      have hcl : RetCl g rg safe seeds node := hS.1 node hnode
      have hrest : ∀ n ∈ rest, v n 0 = true := fun n hn => hq n (List.mem_cons_of_mem _ hn)
      obtain ⟨hmono, hsub, hqm, hnew, hS', hdischarged⟩ :=
        returnInner_spec g rg safe seeds hA node (outEdges rg node) hes v rest hcl hS hrest
      have hstep : returnGo g rg safe (fuel + 1) (node :: rest) v =
          returnGo g rg safe fuel (returnInner g safe (outEdges rg node) v rest).2
            (returnInner g safe (outEdges rg node) v rest).1 := rfl
      rw [hstep]
      have hmeas := returnInner_measure g safe (outEdges rg node)
        (fun e he => dst_lt_nodeBound (List.mem_of_mem_filter he)) v rest
      have hdis' : ∀ n, (returnInner g safe (outEdges rg node) v rest).1 n 0 = true →
          n ∈ (returnInner g safe (outEdges rg node) v rest).2 ∨
          DischargedR g rg safe (returnInner g safe (outEdges rg node) v rest).1 n := by
        intro n hn
        rcases hnew n hn with hold | hmem2
        · rcases hdis n hold with hq1 | hd
          · rcases List.mem_cons.mp hq1 with rfl | hrest'
            · right
              intro x hxmem hxsrc d hxlook hxsafe
              have hxout : x ∈ outEdges rg n :=
                List.mem_filter.mpr ⟨hxmem, by rw [beq_iff_eq]; exact hxsrc⟩
              have hxlook' : getEdgeData g x.dst x.src = some d := by
                rw [hxsrc]
                exact hxlook
              exact hdischarged x hxout d hxlook' hxsafe
            · exact Or.inl (hsub n hrest')
          · exact Or.inr (dischargedR_mono hd hmono)
        · exact Or.inl hmem2
      obtain ⟨m2, s2, d2⟩ := ih (returnInner g safe (outEdges rg node) v rest).2
        (returnInner g safe (outEdges rg node) v rest).1
        (by have hlen : (node :: rest).length = rest.length + 1 := rfl; omega)
        hS' hqm hdis'
      exact ⟨matLE_trans hmono m2, s2, d2⟩

theorem returnRun_spec (g rg : DiGraph) (safe : Edge → Bool) (seeds : List Nat)
    (hA : NonzeroActions g) :
    MatLE (markSeeds falseMat seeds) (returnRun g rg safe seeds falseMat) ∧
    RetSound g rg safe seeds (returnRun g rg safe seeds falseMat) ∧
    (∀ n, (returnRun g rg safe seeds falseMat) n 0 = true →
      DischargedR g rg safe (returnRun g rg safe seeds falseMat) n) := by
  have hS0 : RetSound g rg safe seeds (markSeeds falseMat seeds) := by
    constructor
    · intro n hn
      exact RetCl.seed (markSeeds_clean_iff.mp hn).1
    · intro n a ha hn
      exact absurd (markSeeds_clean_iff.mp hn).2 ha
  have hq0 : ∀ n ∈ seeds, markSeeds falseMat seeds n 0 = true := by
    intro n hn
    exact markSeeds_clean_iff.mpr ⟨hn, rfl⟩
  have hdis0 : ∀ n, markSeeds falseMat seeds n 0 = true →
      n ∈ seeds ∨ DischargedR g rg safe (markSeeds falseMat seeds) n := by
    intro n hn
    exact Or.inl (markSeeds_clean_iff.mp hn).1
  exact ⟨(returnGo_spec g rg safe seeds hA _ seeds (markSeeds falseMat seeds)
      (le_refl _) hS0 hq0 hdis0).1,
    (returnGo_spec g rg safe seeds hA _ seeds (markSeeds falseMat seeds)
      (le_refl _) hS0 hq0 hdis0).2.1,
    (returnGo_spec g rg safe seeds hA _ seeds (markSeeds falseMat seeds)
      (le_refl _) hS0 hq0 hdis0).2.2⟩

theorem returnRun_col0 (g rg : DiGraph) (safe : Edge → Bool) (seeds : List Nat)
    (hA : NonzeroActions g) (n : Nat) :
    returnRun g rg safe seeds falseMat n 0 = true ↔ RetCl g rg safe seeds n := by
  obtain ⟨hmono, hS, hdis⟩ := returnRun_spec g rg safe seeds hA
  constructor
  · exact hS.1 n
  · intro hcl
    induction hcl with
    | seed hn => exact hmono _ 0 (markSeeds_clean_iff.mpr ⟨hn, rfl⟩)
    | step hcl hmem hlook hsafe ih =>
      exact ((hdis _ ih) _ hmem rfl _ hlook hsafe).2

theorem returnRun_cell (g rg : DiGraph) (safe : Edge → Bool) (seeds : List Nat)
    (hA : NonzeroActions g) (m a : Nat) (ha : a ≠ 0) :
    returnRun g rg safe seeds falseMat m a = true ↔
      (∃ re d, re ∈ rg.edges ∧ re.dst = m ∧ RetCl g rg safe seeds re.src ∧
        getEdgeData g m re.src = some d ∧ d.action = a ∧ safe d = true) := by
  obtain ⟨hmono, hS, hdis⟩ := returnRun_spec g rg safe seeds hA
  constructor
  · intro hn
    obtain ⟨_, re, d, hm, hd, hcl, hl, hact, hsafe⟩ := hS.2 m a ha hn
    exact ⟨re, d, hm, hd, hcl, hl, hact, hsafe⟩
  · rintro ⟨re, d, hm, hd, hcl, hl, hact, hsafe⟩
    have h0 : returnRun g rg safe seeds falseMat re.src 0 = true :=
      (returnRun_col0 g rg safe seeds hA re.src).mpr hcl
    have hl' : getEdgeData g re.dst re.src = some d := by
      rw [hd]
      exact hl
    have hcells := (hdis re.src h0) re hm rfl d hl' hsafe
    rw [← hd, ← hact]
    exact hcells.1

/-! ### Monotonicity in the safety labels; the reverse-graph equivalence -/

theorem reachCl_mono {g : DiGraph} {safe safe' : Edge → Bool} {seeds : List Nat}
    (hss : ∀ e, safe e = true → safe' e = true) :
    ∀ {n : Nat}, ReachCl g safe seeds n → ReachCl g safe' seeds n := by
  intro n h
  induction h with
  | seed hn => exact ReachCl.seed hn
  | step _ hmem hsafe hane ih => exact ReachCl.step ih hmem (hss _ hsafe) hane

theorem retCl_mono {g rg : DiGraph} {safe safe' : Edge → Bool} {seeds : List Nat}
    (hss : ∀ e, safe e = true → safe' e = true) :
    ∀ {n : Nat}, RetCl g rg safe seeds n → RetCl g rg safe' seeds n := by
  intro n h
  induction h with
  | seed hn => exact RetCl.seed hn
  | step _ hmem hlook hsafe ih => exact RetCl.step ih hmem hlook (hss _ hsafe)

theorem reachRun_mono_cells (g : DiGraph) (safe safe' : Edge → Bool) (seeds : List Nat)
    (hU : UniqueActions g) (hss : ∀ e, safe e = true → safe' e = true) (i j : Nat)
    (h : reachRun g safe seeds falseMat i j = true) :
    reachRun g safe' seeds falseMat i j = true := by
  by_cases hj : j = 0
  · subst hj
    exact (reachRun_col0 g safe' seeds hU i).mpr
      (reachCl_mono hss ((reachRun_col0 g safe seeds hU i).mp h))
  · obtain ⟨hcl, e, hmem, hsrc, hact, hsafe⟩ := (reachRun_cell g safe seeds hU i j hj).mp h
    exact (reachRun_cell g safe' seeds hU i j hj).mpr
      ⟨reachCl_mono hss hcl, e, hmem, hsrc, hact, hss e hsafe⟩

theorem returnRun_mono_cells (g rg : DiGraph) (safe safe' : Edge → Bool) (seeds : List Nat)
    (hA : NonzeroActions g) (hss : ∀ e, safe e = true → safe' e = true) (i j : Nat)
    (h : returnRun g rg safe seeds falseMat i j = true) :
    returnRun g rg safe' seeds falseMat i j = true := by
  by_cases hj : j = 0
  · subst hj
    exact (returnRun_col0 g rg safe' seeds hA i).mpr
      (retCl_mono hss ((returnRun_col0 g rg safe seeds hA i).mp h))
  · obtain ⟨re, d, hm, hd, hcl, hl, hact, hsafe⟩ :=
      (returnRun_cell g rg safe seeds hA i j hj).mp h
    exact (returnRun_cell g rg safe' seeds hA i j hj).mpr
      ⟨re, d, hm, hd, retCl_mono hss hcl, hl, hact, hss d hsafe⟩

theorem flip_flip (e : Edge) : e.flip.flip = e := rfl

theorem mem_reverse_iff {g : DiGraph} {e : Edge} :
    e ∈ g.reverse.edges ↔ e.flip ∈ g.edges := by
  show e ∈ g.edges.map Edge.flip ↔ e.flip ∈ g.edges
  rw [List.mem_map]
  constructor
  · rintro ⟨f, hf, rfl⟩
    rw [flip_flip]
    exact hf
  · intro h
    exact ⟨e.flip, h, flip_flip e⟩

theorem getEdgeData_src_dst {g : DiGraph} {u v : Nat} {d : Edge}
    (h : getEdgeData g u v = some d) : d.src = u ∧ d.dst = v := by
  have := List.find?_some h
  simp only [Bool.and_eq_true, beq_iff_eq] at this
  exact this

theorem getEdgeData_of_mem {g : DiGraph} {f : Edge} (hP : UniquePairs g)
    (hf : f ∈ g.edges) : getEdgeData g f.src f.dst = some f := by
  cases hd : getEdgeData g f.src f.dst with
  | none =>
    have hnone := List.find?_eq_none.mp hd f hf
    simp at hnone
  | some d =>
    obtain ⟨hs, hdd⟩ := getEdgeData_src_dst hd
    have hde : d = f := hP d (getEdgeData_mem hd) f hf hs hdd
    rw [hde]

theorem retCl_iff_reachCl_rev (g : DiGraph) (safe : Edge → Bool) (seeds : List Nat)
    (hP : UniquePairs g) (hA : NonzeroActions g) (n : Nat) :
    RetCl g g.reverse safe seeds n ↔
      ReachCl g.reverse (fun e => safe e.flip) seeds n := by
  constructor
  · intro h
    induction h with
    | seed hn => exact ReachCl.seed hn
    | @step re d hcl hmem hlook hsafe ih =>
      have hflip : re.flip ∈ g.edges := mem_reverse_iff.mp hmem
      obtain ⟨hs, hd2⟩ := getEdgeData_src_dst hlook
      have hde : d = re.flip := hP d (getEdgeData_mem hlook) re.flip hflip hs hd2
      have hsafe' : safe re.flip = true := by rw [← hde]; exact hsafe
      have hane : re.action ≠ 0 := hA re.flip hflip
      exact ReachCl.step ih hmem hsafe' hane
  · intro h
    induction h with
    | seed hn => exact RetCl.seed hn
    | @step e hcl hmem hsafe hane ih =>
      have hflip : e.flip ∈ g.edges := mem_reverse_iff.mp hmem
      have hlook : getEdgeData g e.dst e.src = some e.flip :=
        getEdgeData_of_mem hP hflip
      exact RetCl.step ih hmem hlook hsafe

/-! ### The traversals read safety only through the linked cells -/

theorem reachStep_congr {safeA safeB : Edge → Bool} (v : Mat) (q : List Nat) (e : Edge)
    (he : safeA e = safeB e) : reachStep safeA v q e = reachStep safeB v q e := by
  unfold reachStep
  rw [he]

theorem reachInner_congr {safeA safeB : Edge → Bool} :
    ∀ (es : List Edge), (∀ e ∈ es, safeA e = safeB e) → ∀ (v : Mat) (q : List Nat),
      reachInner safeA es v q = reachInner safeB es v q := by
  intro es
  induction es with
  | nil => intro _ v q; rfl
  | cons e rest ih =>
    intro h v q
    show reachInner safeA rest (reachStep safeA v q e).1 (reachStep safeA v q e).2 =
      reachInner safeB rest (reachStep safeB v q e).1 (reachStep safeB v q e).2
    rw [reachStep_congr v q e (h e (List.mem_cons_self e rest))]
    exact ih (fun x hx => h x (List.mem_cons_of_mem _ hx)) _ _

theorem reachGo_congr (g : DiGraph) {safeA safeB : Edge → Bool}
    (h : ∀ e ∈ g.edges, safeA e = safeB e) :
    ∀ (fuel : Nat) (q : List Nat) (v : Mat),
      reachGo g safeA fuel q v = reachGo g safeB fuel q v := by
  intro fuel
  induction fuel with
  | zero => intro q v; rfl
  | succ fuel ih =>
    intro q v
    cases q with
    | nil => rfl
    | cons node rest =>
      show reachGo g safeA fuel (reachInner safeA (outEdges g node) v rest).2
          (reachInner safeA (outEdges g node) v rest).1 =
        reachGo g safeB fuel (reachInner safeB (outEdges g node) v rest).2
          (reachInner safeB (outEdges g node) v rest).1
      rw [reachInner_congr (outEdges g node)
        (fun e he => h e (List.mem_of_mem_filter he)) v rest]
      exact ih _ _

theorem returnStep_congr (g : DiGraph) {safeA safeB : Edge → Bool}
    (h : ∀ e ∈ g.edges, safeA e = safeB e) (v : Mat) (q : List Nat) (e : Edge) :
    returnStep g safeA v q e = returnStep g safeB v q e := by
  unfold returnStep
  cases hd : getEdgeData g e.dst e.src with
  | none => rfl
  | some d =>
    dsimp only
    rw [h d (getEdgeData_mem hd)]

theorem returnInner_congr (g : DiGraph) {safeA safeB : Edge → Bool}
    (h : ∀ e ∈ g.edges, safeA e = safeB e) :
    ∀ (es : List Edge) (v : Mat) (q : List Nat),
      returnInner g safeA es v q = returnInner g safeB es v q := by
  intro es
  induction es with
  | nil => intro v q; rfl
  | cons e rest ih =>
    intro v q
    show returnInner g safeA rest (returnStep g safeA v q e).1 (returnStep g safeA v q e).2 =
      returnInner g safeB rest (returnStep g safeB v q e).1 (returnStep g safeB v q e).2
    rw [returnStep_congr g h v q e]
    exact ih _ _

theorem returnGo_congr (g rg : DiGraph) {safeA safeB : Edge → Bool}
    (h : ∀ e ∈ g.edges, safeA e = safeB e) :
    ∀ (fuel : Nat) (q : List Nat) (v : Mat),
      returnGo g rg safeA fuel q v = returnGo g rg safeB fuel q v := by
  intro fuel
  induction fuel with
  | zero => intro q v; rfl
  | succ fuel ih =>
    intro q v
    cases q with
    | nil => rfl
    | cons node rest =>
      show returnGo g rg safeA fuel (returnInner g safeA (outEdges rg node) v rest).2
          (returnInner g safeA (outEdges rg node) v rest).1 =
        returnGo g rg safeB fuel (returnInner g safeB (outEdges rg node) v rest).2
          (returnInner g safeB (outEdges rg node) v rest).1
      rw [returnInner_congr g h (outEdges rg node) v rest]
      exact ih _ _

/-! ### Unfolding `compute_S_hat` -/

theorem compute_S_hat_ok (s : SafeMDP) (safe : Edge → Bool) (hne : s.initial_nodes ≠ []) :
    s.compute_S_hat safe = (Except.ok (), { s with
      reach := reachRun s.graph safe s.initial_nodes falseMat,
      S_hat := fun i j =>
        returnRun s.graph s.graph_reverse safe s.initial_nodes falseMat i j &&
        reachRun s.graph safe s.initial_nodes falseMat i j }) := by
  unfold SafeMDP.compute_S_hat reachable_set returnable_set
  rw [if_neg hne, if_neg hne]

theorem compute_S_hat_err (s : SafeMDP) (safe : Edge → Bool) (he : s.initial_nodes = []) :
    s.compute_S_hat safe =
      (Except.error SafeError.emptySeedSet, { s with reach := falseMat }) := by
  unfold SafeMDP.compute_S_hat reachable_set
  rw [if_pos he]

/-! ### The claims -/

theorem initial_nodes_ne_nil (g : DiGraph) (gp : GP) (S_hat0 : Mat) (h L beta : Int)
    (rm gm : Mat) (hseed : ∃ n ∈ List.range g.numNodes, S_hat0 n 0 = true) :
    (SafeMDP.init g gp S_hat0 h L beta rm gm).initial_nodes ≠ [] := by
  obtain ⟨n, hn, hs⟩ := hseed
  have hmem : n ∈ (List.range g.numNodes).filter (fun n => S_hat0 n 0) :=
    List.mem_filter.mpr ⟨hn, hs⟩
  exact List.ne_nil_of_mem hmem

/-- Claim C1: for every graph, every initial safe-set matrix with at least
one true entry in column 0, and every assignment of boolean safety labels
to the edges, after `compute_S_hat()` returns, every cell that is true in
`S_hat` is also true in `reach`. -/
theorem c1_subset (g : DiGraph) (gp : GP) (S_hat0 : Mat) (h L beta : Int) (rm gm : Mat)
    (safe : Edge → Bool) (i j : Nat)
    (hseed : ∃ n ∈ List.range g.numNodes, S_hat0 n 0 = true)
    (hS : ((SafeMDP.init g gp S_hat0 h L beta rm gm).compute_S_hat safe).2.S_hat i j = true) :
    ((SafeMDP.init g gp S_hat0 h L beta rm gm).compute_S_hat safe).2.reach i j = true := by
  have hne := initial_nodes_ne_nil g gp S_hat0 h L beta rm gm hseed
  rw [compute_S_hat_ok _ safe hne] at hS ⊢
  dsimp only at hS ⊢
  rw [Bool.and_eq_true] at hS
  exact hS.2

/-- Witness for C1 at Scenario A: cell `(0,0)` is in `S_hat`, hence in
`reach`. -/
theorem c1_subset_witness :
    (mdpA.compute_S_hat safeT).2.S_hat 0 0 = true ∧
    (mdpA.compute_S_hat safeT).2.reach 0 0 = true :=
  ⟨by decide, c1_subset g3 gp0 sh0A 0 0 0 falseMat falseMat safeT 0 0
    (by decide) (by decide)⟩

/-- Counterexample to claim C2 as stated: with an empty column-0 seed set,
`compute_S_hat` does raise the empty-seed error, but `reach` is NOT left
unchanged from its pre-call contents: the entry clearing
`self.reach[:] = False` runs before `reachable_set` raises, so the
uninitialised all-true `reach` memory becomes all-false. -/
theorem c2_counterexample :
    (mdpC2.compute_S_hat safeT).1 = Except.error SafeError.emptySeedSet ∧
    mdpC2.reach 0 0 = true ∧
    (mdpC2.compute_S_hat safeT).2.reach 0 0 = false := by
  refine ⟨by decide, by decide, by decide⟩

/-- Claim C2 (amended): if the initial safe-set matrix has no true entry
in column 0, `compute_S_hat()` fails with the empty-seed error before any
traversal runs; `S_hat` is left unchanged, but `reach` has already been
cleared to all-false by the clearing step that precedes the raise. -/
theorem c2_amended (g : DiGraph) (gp : GP) (S_hat0 : Mat) (h L beta : Int) (rm gm : Mat)
    (safe : Edge → Bool)
    (hempty : ∀ n ∈ List.range g.numNodes, S_hat0 n 0 = false) :
    ((SafeMDP.init g gp S_hat0 h L beta rm gm).compute_S_hat safe).1 =
        Except.error SafeError.emptySeedSet ∧
    ((SafeMDP.init g gp S_hat0 h L beta rm gm).compute_S_hat safe).2.S_hat =
        (SafeMDP.init g gp S_hat0 h L beta rm gm).S_hat ∧
    ((SafeMDP.init g gp S_hat0 h L beta rm gm).compute_S_hat safe).2.reach = falseMat := by
  have he : (SafeMDP.init g gp S_hat0 h L beta rm gm).initial_nodes = [] := by
    show (List.range g.numNodes).filter (fun n => S_hat0 n 0) = []
    rw [List.filter_eq_nil_iff]
    intro a ha
    simp [hempty a ha]
  rw [compute_S_hat_err _ safe he]
  exact ⟨rfl, rfl, rfl⟩

/-- Witness for the amended C2 on the one-node graph with all-false seeds. -/
theorem c2_amended_witness :
    (mdpC2.compute_S_hat safeT).1 = Except.error SafeError.emptySeedSet ∧
    (mdpC2.compute_S_hat safeT).2.S_hat = mdpC2.S_hat ∧
    (mdpC2.compute_S_hat safeT).2.reach = falseMat :=
  c2_amended g1 gp0 falseMat 0 0 0 trueMat falseMat safeT (by decide)

/-- Claim C3: on the 3-node line graph `0→1→2` with single action 1,
both edges safe and seed `{0}`, after `compute_S_hat()` the `reach`
matrix has exactly the cells `(0,0), (0,1), (1,0), (1,1), (2,0)` true and
all other cells of the `(3, 2)` shape false, and `S_hat` has exactly the
cell `(0,0)` true and all other cells false. -/
theorem c3_scenarioA :
    (mdpA.compute_S_hat safeT).2.reach 0 0 = true ∧
    (mdpA.compute_S_hat safeT).2.reach 0 1 = true ∧
    (mdpA.compute_S_hat safeT).2.reach 1 0 = true ∧
    (mdpA.compute_S_hat safeT).2.reach 1 1 = true ∧
    (mdpA.compute_S_hat safeT).2.reach 2 0 = true ∧
    (mdpA.compute_S_hat safeT).2.reach 2 1 = false ∧
    (mdpA.compute_S_hat safeT).2.S_hat 0 0 = true ∧
    (mdpA.compute_S_hat safeT).2.S_hat 0 1 = false ∧
    (mdpA.compute_S_hat safeT).2.S_hat 1 0 = false ∧
    (mdpA.compute_S_hat safeT).2.S_hat 1 1 = false ∧
    (mdpA.compute_S_hat safeT).2.S_hat 2 0 = false ∧
    (mdpA.compute_S_hat safeT).2.S_hat 2 1 = false := by
  decide

/-- Counterexample to claim C4 as stated: on the graph with edges
`0→1` and `0→2` both labelled action 1, flipping the label of `0→1` from
unsafe to safe makes the `reach` cell `(2,0)` flip from true to false
(the newly safe edge marks the shared `(0,1)` cell first and blocks the
edge `0→2`). -/
theorem c4_counterexample :
    safeOldC4 e0C4 = false ∧ safeNewC4 e0C4 = true ∧
    (∀ e, e ≠ e0C4 → safeNewC4 e = safeOldC4 e) ∧
    (mdpC4.compute_S_hat safeOldC4).2.reach 2 0 = true ∧
    (mdpC4.compute_S_hat safeNewC4).2.reach 2 0 = false := by
  refine ⟨by decide, by decide, ?_, by decide, by decide⟩
  intro e he
  show (if e = e0C4 then true else safeOldC4 e) = safeOldC4 e
  rw [if_neg he]

/-- Claim C4 (amended): on graphs satisfying the spec's data-model
constraints — no edge labelled with the reserved action 0, and at most one
edge per `(node, action)` pair — flipping one edge's safety label from
unsafe to safe while keeping every other label can only grow or preserve
`reach` and `S_hat` after `compute_S_hat()`; no cell flips from true to
false. -/
theorem c4_mono (g : DiGraph) (gp : GP) (S_hat0 : Mat) (h L beta : Int) (rm gm : Mat)
    (safe : Edge → Bool) (e0 : Edge) (i j : Nat)
    (hU : UniqueActions g) (hA : NonzeroActions g)
    (hseed : ∃ n ∈ List.range g.numNodes, S_hat0 n 0 = true) :
    (((SafeMDP.init g gp S_hat0 h L beta rm gm).compute_S_hat safe).2.reach i j = true →
      ((SafeMDP.init g gp S_hat0 h L beta rm gm).compute_S_hat
        (fun e => if e = e0 then true else safe e)).2.reach i j = true) ∧
    (((SafeMDP.init g gp S_hat0 h L beta rm gm).compute_S_hat safe).2.S_hat i j = true →
      ((SafeMDP.init g gp S_hat0 h L beta rm gm).compute_S_hat
        (fun e => if e = e0 then true else safe e)).2.S_hat i j = true) := by
  have hne := initial_nodes_ne_nil g gp S_hat0 h L beta rm gm hseed
  rw [compute_S_hat_ok _ safe hne,
    compute_S_hat_ok _ (fun e => if e = e0 then true else safe e) hne]
  dsimp only
  have hss : ∀ e, safe e = true → (if e = e0 then true else safe e) = true := by
    intro e he
    by_cases h0 : e = e0
    · rw [if_pos h0]
    · rw [if_neg h0]
      exact he
  constructor
  · intro hr
    exact reachRun_mono_cells g safe _ _ hU hss i j hr
  · intro hsh
    rw [Bool.and_eq_true] at hsh ⊢
    exact ⟨returnRun_mono_cells g g.reverse safe _ _ hA hss i j hsh.1,
      reachRun_mono_cells g safe _ _ hU hss i j hsh.2⟩

/-- Witness for the amended C4 on the line graph: making the edge `1→2`
safe (initially only `0→1` is safe) preserves the truth of `reach (1,0)`. -/
theorem c4_mono_witness :
    (mdpA.compute_S_hat (fun e => e.src == 0)).2.reach 1 0 = true ∧
    (mdpA.compute_S_hat
      (fun e => if e = (⟨1, 2, 1⟩ : Edge) then true else e.src == 0)).2.reach 1 0 = true :=
  ⟨by decide,
    (c4_mono g3 gp0 sh0A 0 0 0 falseMat falseMat (fun e => e.src == 0) ⟨1, 2, 1⟩ 1 0
      (by unfold UniqueActions; decide) (by unfold NonzeroActions; decide)
      (by decide)).1 (by decide)⟩

/-- Claim C5: the traversals fail with the empty-seed error exactly when
the seed list is empty; with a non-empty seed list they never fail; and on
failure the `out` matrix is returned unmodified. -/
theorem c5_seed_errors (g rg : DiGraph) (safe : Edge → Bool) (seeds : List Nat) (out : Mat) :
    ((reachable_set g safe seeds out).1 = Except.error SafeError.emptySeedSet ↔
      seeds = []) ∧
    (seeds = [] → (reachable_set g safe seeds out).2 = out) ∧
    (seeds ≠ [] → (reachable_set g safe seeds out).1 = Except.ok ()) ∧
    ((returnable_set g rg safe seeds out).1 = Except.error SafeError.emptySeedSet ↔
      seeds = []) ∧
    (seeds = [] → (returnable_set g rg safe seeds out).2 = out) ∧
    (seeds ≠ [] → (returnable_set g rg safe seeds out).1 = Except.ok ()) := by
  by_cases hs : seeds = []
  · simp [reachable_set, returnable_set, hs]
  · simp [reachable_set, returnable_set, hs]

/-- Witness for C5: on an empty seed list the traversal reports the error
and returns `out` untouched. -/
theorem c5_seed_errors_witness :
    (reachable_set g3 safeT [] trueMat).2 = trueMat :=
  (c5_seed_errors g3 g3.reverse safeT [] trueMat).2.1 rfl

/-- Counterexample to claim C6 as stated: on the graph with edges `1→0`
and `2→0` sharing action 1 (all safe, seeds `{0}`), `returnable_set`
marks node 2 in column 0 but `reachable_set` on the reverse graph (labels
carried over) does not: in the reverse graph both edges leave node 0 with
the same action, so the second is blocked by the visited `(0,1)` cell. -/
theorem c6_counterexample :
    (returnable_set gC6 gC6.reverse safeT [0] falseMat).2 2 0 = true ∧
    (reachable_set gC6.reverse (fun e => safeT e.flip) [0] falseMat).2 2 0 = false := by
  refine ⟨by decide, by decide⟩

/-- Claim C6 (amended): on graphs satisfying, in addition, the data-model
constraints that no action label is 0, that there is at most one edge per
ordered node pair, and that no node has two in-edges sharing an action
label (so the reverse graph also has unique `(node, action)` pairs),
`returnable_set` on `g` with its reverse view and `reachable_set` on the
reverse graph with the safety labels carried over mark exactly the same
set of nodes in column 0. -/
theorem c6_symmetry (g : DiGraph) (safe : Edge → Bool) (seeds : List Nat) (n : Nat)
    (hP : UniquePairs g) (hA : NonzeroActions g) (hUrev : UniqueActions g.reverse)
    (hne : seeds ≠ []) :
    (returnable_set g g.reverse safe seeds falseMat).2 n 0 =
      (reachable_set g.reverse (fun e => safe e.flip) seeds falseMat).2 n 0 := by
  have h1 : (returnable_set g g.reverse safe seeds falseMat).2 =
      returnRun g g.reverse safe seeds falseMat := by
    simp [returnable_set, hne]
  have h2 : (reachable_set g.reverse (fun e => safe e.flip) seeds falseMat).2 =
      reachRun g.reverse (fun e => safe e.flip) seeds falseMat := by
    simp [reachable_set, hne]
  rw [h1, h2]
  have hiff1 := returnRun_col0 g g.reverse safe seeds hA n
  have hiff2 := reachRun_col0 g.reverse (fun e => safe e.flip) seeds hUrev n
  have hcl := retCl_iff_reachCl_rev g safe seeds hP hA n
  cases hb1 : returnRun g g.reverse safe seeds falseMat n 0 <;>
    cases hb2 : reachRun g.reverse (fun e => safe e.flip) seeds falseMat n 0
  · rfl
  · rw [hb1] at hiff1
    rw [hb2] at hiff2
    exact absurd (hiff1.mpr (hcl.mpr (hiff2.mp rfl))) (by simp)
  · rw [hb1] at hiff1
    rw [hb2] at hiff2
    exact absurd (hiff2.mpr (hcl.mp (hiff1.mp rfl))) (by simp)
  · rfl

/-- Witness for the amended C6 on the line graph at node 1. -/
theorem c6_symmetry_witness :
    (returnable_set g3 g3.reverse safeT [0] falseMat).2 1 0 =
      (reachable_set g3.reverse (fun e => safeT e.flip) [0] falseMat).2 1 0 :=
  c6_symmetry g3 safeT [0] 1 (by unfold UniquePairs; decide)
    (by unfold NonzeroActions; decide) (by unfold UniqueActions; decide) (by decide)

/-- Claim C7: `initial_nodes` is computed exactly once at construction as
the indices of the true entries in column 0 of the supplied initial
safe-set matrix; neither `compute_S_hat` nor `add_gp_observations`
modifies `initial_nodes` or `S_hat0`; and a recomputation reads the frozen
seed list, never the current `S_hat` — states differing only in `S_hat`
produce identical `reach` and `S_hat` results. -/
theorem c7_frame (g : DiGraph) (gp : GP) (S_hat0 : Mat) (h L beta : Int) (rm gm : Mat)
    (s : SafeMDP) (safe : Edge → Bool) (x_new y_new : List (List Int)) (A : Mat)
    (hne : s.initial_nodes ≠ []) :
    (SafeMDP.init g gp S_hat0 h L beta rm gm).initial_nodes =
      (List.range g.numNodes).filter (fun n => S_hat0 n 0) ∧
    (SafeMDP.init g gp S_hat0 h L beta rm gm).S_hat0 = S_hat0 ∧
    (s.compute_S_hat safe).2.initial_nodes = s.initial_nodes ∧
    (s.compute_S_hat safe).2.S_hat0 = s.S_hat0 ∧
    (s.add_gp_observations x_new y_new).initial_nodes = s.initial_nodes ∧
    (s.add_gp_observations x_new y_new).S_hat0 = s.S_hat0 ∧
    (({ s with S_hat := A }).compute_S_hat safe).2.reach =
      (s.compute_S_hat safe).2.reach ∧
    (({ s with S_hat := A }).compute_S_hat safe).2.S_hat =
      (s.compute_S_hat safe).2.S_hat := by
  refine ⟨rfl, rfl, ?_, ?_, rfl, rfl, ?_, ?_⟩
  · rw [compute_S_hat_ok s safe hne]
  · rw [compute_S_hat_ok s safe hne]
  · rw [compute_S_hat_ok s safe hne, compute_S_hat_ok ({ s with S_hat := A }) safe hne]
  · rw [compute_S_hat_ok s safe hne, compute_S_hat_ok ({ s with S_hat := A }) safe hne]

/-- Witness for C7: overwriting the current `S_hat` of the Scenario A
object does not change what recomputation produces. -/
theorem c7_frame_witness :
    (({ mdpA with S_hat := trueMat }).compute_S_hat safeT).2.S_hat =
      (mdpA.compute_S_hat safeT).2.S_hat :=
  (c7_frame g3 gp0 sh0A 0 0 0 falseMat falseMat mdpA safeT [] [] trueMat
    (by decide)).2.2.2.2.2.2.2

/-- Claim C8: both BFS loops terminate with work bounded by the number of
still-unmarked column-0 cells plus the seed count: running either loop
with any extra fuel beyond that bound produces exactly the same matrix,
i.e. the queue has emptied within the bound. -/
theorem c8_termination (g rg : DiGraph) (safe : Edge → Bool) (seeds : List Nat)
    (out : Mat) (extra : Nat) :
    reachGo g safe (unmarked (nodeBound g) (markSeeds out seeds) + seeds.length + extra)
        seeds (markSeeds out seeds) = reachRun g safe seeds out ∧
    returnGo g rg safe
        (unmarked (nodeBound rg) (markSeeds out seeds) + seeds.length + extra)
        seeds (markSeeds out seeds) = returnRun g rg safe seeds out :=
  ⟨reachGo_fuel_add g safe _ seeds _ (le_refl _) extra,
    returnGo_fuel_add g rg safe _ seeds _ (le_refl _) extra⟩

theorem getD_map_take (dim : Nat) :
    ∀ (X : List (List Rat)) (i : Nat),
      (X.map (List.take dim)).getD i [] = List.take dim (X.getD i []) := by
  intro X
  induction X with
  | nil =>
    intro i
    simp
  | cons x X ih =>
    intro i
    cases i with
    | zero => rfl
    | succ n => exact ih n

theorem getD_map_drop (dim : Nat) :
    ∀ (X : List (List Rat)) (i : Nat),
      (X.map (List.drop dim)).getD i [] = List.drop dim (X.getD i []) := by
  intro X
  induction X with
  | nil =>
    intro i
    simp
  | cons x X ih =>
    intro i
    cases i with
    | zero => rfl
    | succ n => exact ih n

theorem row_colsLeft (dim : Nat) (X : List (List Rat)) (i : Nat) :
    row (colsLeft dim X) i = List.take dim (row X i) :=
  getD_map_take dim X i

theorem row_colsRight (dim : Nat) (X : List (List Rat)) (i : Nat) :
    row (colsRight dim X) i = List.drop dim (row X i) :=
  getD_map_drop dim X i

/-- Counterexample to claim C9 as stated: in the two-argument form the
code splits the SECOND argument (the concatenated pairs) and applies the
base kernel with the plain point first, `k(x, a1) − k(x, a2)`; for the
non-symmetric base kernel `k(u, v) = u₀ + 2·v₀`, point `x = (5)` and pair
`(a1, a2) = (1, 2)` this differs from the claimed `k(a1, x) − k(a2, x)`. -/
theorem c9_counterexample :
    ¬ (dkC9.K xC9 (some pC9) 0 0 =
      dkC9.kern.k (List.take dkC9.kern.input_dim (row pC9 0)) (row xC9 0) -
      dkC9.kern.k (List.drop dkC9.kern.input_dim (row pC9 0)) (row xC9 0)) := by
  norm_num [DifferenceKernel.K, BaseKernel.Kmat, dkC9, kC9, xC9, pC9, row, colsLeft,
    colsRight, List.getD]

/-- Claim C9 (amended): for every base kernel `k` and inputs split at the
kernel's input dimension, `DifferenceKernel.K` on a single argument with
rows `(a1, a2)` has entries `k(a1,b1) + k(a2,b2) − k(a1,b2) − k(a2,b1)`;
against concatenated pairs in the second argument it has entries
`k(x, b1) − k(x, b2)` (the base kernel is applied with the plain point
first); and `DifferenceKernel.Kdiag` on rows `(a1, a2)` has entries
`k(a1,a1) + k(a2,a2) − 2·k(a1,a2)`. -/
theorem c9_diffkernel (dk : DifferenceKernel) (x1 x2 p : List (List Rat)) (i j : Nat) :
    dk.K x1 none i j =
      dk.kern.k (List.take dk.kern.input_dim (row x1 i))
          (List.take dk.kern.input_dim (row x1 j)) +
        dk.kern.k (List.drop dk.kern.input_dim (row x1 i))
          (List.drop dk.kern.input_dim (row x1 j)) -
        dk.kern.k (List.take dk.kern.input_dim (row x1 i))
          (List.drop dk.kern.input_dim (row x1 j)) -
        dk.kern.k (List.drop dk.kern.input_dim (row x1 i))
          (List.take dk.kern.input_dim (row x1 j)) ∧
    dk.K x2 (some p) i j =
      dk.kern.k (row x2 i) (List.take dk.kern.input_dim (row p j)) -
        dk.kern.k (row x2 i) (List.drop dk.kern.input_dim (row p j)) ∧
    dk.Kdiag p i =
      dk.kern.k (List.take dk.kern.input_dim (row p i))
          (List.take dk.kern.input_dim (row p i)) +
        dk.kern.k (List.drop dk.kern.input_dim (row p i))
          (List.drop dk.kern.input_dim (row p i)) -
        2 * dk.kern.k (List.take dk.kern.input_dim (row p i))
          (List.drop dk.kern.input_dim (row p i)) := by
  refine ⟨?_, ?_, ?_⟩
  · show dk.kern.k (row (colsLeft dk.kern.input_dim x1) i)
          (row (colsLeft dk.kern.input_dim x1) j) +
        dk.kern.k (row (colsRight dk.kern.input_dim x1) i)
          (row (colsRight dk.kern.input_dim x1) j) -
        dk.kern.k (row (colsLeft dk.kern.input_dim x1) i)
          (row (colsRight dk.kern.input_dim x1) j) -
        dk.kern.k (row (colsRight dk.kern.input_dim x1) i)
          (row (colsLeft dk.kern.input_dim x1) j) = _
    rw [row_colsLeft, row_colsLeft, row_colsRight, row_colsRight]
  · show dk.kern.k (row x2 i) (row (colsLeft dk.kern.input_dim p) j) -
        dk.kern.k (row x2 i) (row (colsRight dk.kern.input_dim p) j) = _
    rw [row_colsLeft, row_colsRight]
  · show dk.kern.k (row (colsLeft dk.kern.input_dim p) i)
          (row (colsLeft dk.kern.input_dim p) i) +
        dk.kern.k (row (colsRight dk.kern.input_dim p) i)
          (row (colsRight dk.kern.input_dim p) i) -
        2 * dk.kern.k (row (colsLeft dk.kern.input_dim p) i)
          (row (colsRight dk.kern.input_dim p) i) = _
    rw [row_colsLeft, row_colsRight]

/-- Claim C10: after `link_graph_and_safe_set`, each edge's `safe`
attribute is the one-element view `safe_set[node:node+1, action]`, so the
traversals' safety test on an edge is true exactly when the current
`safe_set[node, action]` entry is true, and the traversal results depend
on the matrix only through those cells: matrices agreeing on every edge's
`(src, action)` cell give identical `reachable_set` and `returnable_set`
results. -/
theorem c10_link (g : DiGraph) (sigma sigma' : Mat) (seeds : List Nat) (out : Mat)
    (e : Edge)
    (hagree : ∀ x ∈ g.edges, sigma x.src x.action = sigma' x.src x.action) :
    (linkedSafe sigma e = true ↔ sigma e.src e.action = true) ∧
    reachable_set g (linkedSafe sigma) seeds out =
      reachable_set g (linkedSafe sigma') seeds out ∧
    returnable_set g g.reverse (linkedSafe sigma) seeds out =
      returnable_set g g.reverse (linkedSafe sigma') seeds out := by
  have hcong : ∀ x ∈ g.edges, linkedSafe sigma x = linkedSafe sigma' x := by
    intro x hx
    show sigma x.src x.action = sigma' x.src x.action
    exact hagree x hx
  refine ⟨Iff.rfl, ?_, ?_⟩
  · unfold reachable_set
    by_cases hs : seeds = []
    · rw [if_pos hs, if_pos hs]
    · rw [if_neg hs, if_neg hs]
      unfold reachRun
      rw [reachGo_congr g hcong]
  · unfold returnable_set
    by_cases hs : seeds = []
    · rw [if_pos hs, if_pos hs]
    · rw [if_neg hs, if_neg hs]
      unfold returnRun
      rw [returnGo_congr g g.reverse hcong]

/-- Witness for C10 on the line graph: `sigC10'` differs from `sigC10`
only at action-5 cells, which no edge is linked to. -/
theorem c10_link_witness :
    (linkedSafe sigC10 ⟨0, 1, 1⟩ = true ↔ sigC10 0 1 = true) ∧
    reachable_set g3 (linkedSafe sigC10) [0] falseMat =
      reachable_set g3 (linkedSafe sigC10') [0] falseMat ∧
    returnable_set g3 g3.reverse (linkedSafe sigC10) [0] falseMat =
      returnable_set g3 g3.reverse (linkedSafe sigC10') [0] falseMat :=
  c10_link g3 sigC10 sigC10' [0] falseMat ⟨0, 1, 1⟩ (by decide)
